import Mathlib

/-!
Verification of `scripts/scrub-repo.py`, a repository-wide project-renaming
utility.  The embedding below translates the script's data and operations into
executable Lean definitions:

* text is a `List Char`; the modelling is at ASCII level (Python's `re` word
  characters, `str.lower`, `str.strip` and the null-byte sniff are exact for
  ASCII texts, which is the domain all theorems and witnesses below use);
* the fixed-width regular expressions of `DEFAULT_FROM_PATTERNS` (literal
  characters, the `[- ]` class, and `\b` word boundaries at both ends) are
  modelled by `PItem` lists; `reSub` mirrors `re.sub(pat, repl, text,
  flags=re.IGNORECASE)`: left-to-right scan over the original string,
  replacements are not rescanned, boundary checks look at the original
  neighbour characters;
* `json.loads` / `json.dumps(j, indent=2)` are modelled by `parseJson` /
  `dumpsTop` over a `Json` type whose numbers are integers (floating-point
  JSON numbers are outside the embedding; a text containing them simply does
  not satisfy the `parseJson … = some _` hypotheses below);
* the file-system walk of `main` is modelled by `runTree` over a `DirTree`;
  per-file read/decode failures are outside the model (all model files are
  readable decoded text, as in the claims).
-/

set_option maxRecDepth 8192

namespace Scrub

/-- Shorthand: the character list of a string literal. -/
def cs (s : String) : List Char := s.data

/-- Python `\w` (re word character) restricted to ASCII: `[A-Za-z0-9_]`. -/
def isWordChar (c : Char) : Bool :=
  decide ((65 ≤ c.toNat ∧ c.toNat ≤ 90) ∨ (97 ≤ c.toNat ∧ c.toNat ≤ 122) ∨
    (48 ≤ c.toNat ∧ c.toNat ≤ 57) ∨ c.toNat = 95)

/-- Characters matched by the regex class `[a-z0-9]` of `to_slug`. -/
def isSlugChar (c : Char) : Bool :=
  decide ((97 ≤ c.toNat ∧ c.toNat ≤ 122) ∨ (48 ≤ c.toNat ∧ c.toNat ≤ 57))

/-- Python `str.strip()` default whitespace, ASCII part. -/
def isPyWs (c : Char) : Bool :=
  decide (c.toNat = 32 ∨ c.toNat = 9 ∨ c.toNat = 10 ∨ c.toNat = 13 ∨
    c.toNat = 11 ∨ c.toNat = 12)

/-- Python `str.lower()`, ASCII part. -/
def pyToLower (c : Char) : Char :=
  if 65 ≤ c.toNat ∧ c.toNat ≤ 90 then Char.ofNat (c.toNat + 32) else c

/-! ## The fixed-width regex engine of the scrubber

Every pattern in the script is a `\b`-delimited sequence of literal characters
and the two-character class `[- ]`; all of them begin and end with a letter,
so the two `\b` checks amount to: the previous original character is not a
word character (or the match is at the start), and the character following the
match is not a word character (or the match is at the end). -/

/-- One item of a fixed-width pattern: a literal character (matched
case-insensitively, as all `re.sub` calls pass `re.IGNORECASE`) or the class
`[- ]`. -/
inductive PItem where
  | lit : Char → PItem
  | sep : PItem
deriving DecidableEq

/-- Match the items of a pattern against a prefix of `s`; return the rest. -/
def matchItems : List PItem → List Char → Option (List Char)
  | [], rest => some rest
  | PItem.lit a :: ps, c :: rest =>
    if pyToLower c = pyToLower a then matchItems ps rest else none
  | PItem.sep :: ps, c :: rest =>
    if c = '-' ∨ c = ' ' then matchItems ps rest else none
  | _ :: _, [] => none

/-- Match a (nonempty) pattern at the current position, including the trailing
`\b` check: the remainder must be empty or start with a non-word character. -/
def matchHere (p : List PItem) (s : List Char) : Option (List Char) :=
  match p with
  | [] => none
  | _ :: _ =>
    match matchItems p s with
    | some rest =>
      match rest with
      | [] => some []
      | d :: _ => if isWordChar d then none else some rest
    | none => none

/-- Scanner core of `re.sub`.  `prevW` records whether the character just
before the current position in the original string is a word character (this
is what the leading `\b` consults; after a replacement it is the last matched
original character, which for every pattern of the script is a letter).  The
fuel argument only forces termination; it is always called with more fuel than
the string is long, so the `0` case is unreachable. -/
def reSubAux (p : List PItem) (repl : List Char) : Nat → Bool → List Char → List Char
  | 0, _, s => s
  | _ + 1, _, [] => []
  | fuel + 1, prevW, c :: rest =>
    if prevW then c :: reSubAux p repl fuel (isWordChar c) rest
    else
      match matchHere p (c :: rest) with
      | some after => repl ++ reSubAux p repl fuel true after
      | none => c :: reSubAux p repl fuel (isWordChar c) rest

/-- `re.sub(p, repl, s, flags=re.IGNORECASE)` for the script's patterns. -/
def reSub (p : List PItem) (repl : List Char) (s : List Char) : List Char :=
  reSubAux p repl (s.length + 1) false s

/-- Mirror of `reSubAux` that only reports whether any match is found. -/
def hasMatchAux (p : List PItem) : Nat → Bool → List Char → Bool
  | 0, _, _ => false
  | _ + 1, _, [] => false
  | fuel + 1, prevW, c :: rest =>
    if prevW then hasMatchAux p fuel (isWordChar c) rest
    else
      match matchHere p (c :: rest) with
      | some _ => true
      | none => hasMatchAux p fuel (isWordChar c) rest

/-- Whether the pattern has a (word-bounded, case-insensitive) match in `s`. -/
def hasMatch (p : List PItem) (s : List Char) : Bool :=
  hasMatchAux p (s.length + 1) false s

/-- Literal pattern text. -/
def plit (s : String) : List PItem := s.data.map PItem.lit

/-- Pattern `\bOne[- ]Shot Multi[- ]Agent App\b`. -/
def patOneShotMultiAgentApp : List PItem :=
  plit "One" ++ [PItem.sep] ++ plit "Shot Multi" ++ [PItem.sep] ++ plit "Agent App"

/-- Pattern `\bOne[- ]Shot App\b`. -/
def patOneShotApp : List PItem := plit "One" ++ [PItem.sep] ++ plit "Shot App"

/-- Pattern `\bOne[- ]Shot\b`. -/
def patOneShot : List PItem := plit "One" ++ [PItem.sep] ++ plit "Shot"

/-- Pattern `\boneshot\b`. -/
def patOneshot : List PItem := plit "oneshot"

/-- Pattern `\bone-shot\b`. -/
def patOneHyphenShot : List PItem := plit "one-shot"

/-- Pattern `\bone_shot\b`. -/
def patOneUnderscoreShot : List PItem := plit "one_shot"

/-- The module-level `DEFAULT_FROM_PATTERNS` list, in source order. -/
def DEFAULT_FROM_PATTERNS : List (List PItem) :=
  [patOneShotMultiAgentApp, patOneShotApp, patOneShot,
   patOneshot, patOneHyphenShot, patOneUnderscoreShot]

/-- `slug.replace("-", "_")`. -/
def slugUnderscore (slug : List Char) : List Char :=
  slug.map (fun c => if c = '-' then '_' else c)

/-- The ordered mapping list built in `main`: every `DEFAULT_FROM_PATTERNS`
entry is paired with the friendly name, then the three slug-variant patterns
are appended with their slug replacements. -/
def build_mappings (new_name slug : List Char) : List (List PItem × List Char) :=
  DEFAULT_FROM_PATTERNS.map (fun p => (p, new_name)) ++
  [(patOneshot, slug), (patOneHyphenShot, slug),
   (patOneUnderscoreShot, slugUnderscore slug)]

/-- `replace_in_text`: sequential application of the rules to the evolving
buffer. -/
def replace_in_text (text : List Char) (mappings : List (List PItem × List Char)) :
    List Char :=
  mappings.foldl (fun t m => reSub m.1 m.2 t) text

/-! ## The slug deriver `to_slug` -/

/-- `name.strip()` (ASCII whitespace). -/
def stripWs (l : List Char) : List Char :=
  ((l.dropWhile isPyWs).reverse.dropWhile isPyWs).reverse

/-- `re.sub(r"[^a-z0-9]+", "-", s)`: each maximal run of characters outside
`[a-z0-9]` becomes a single hyphen.  The flag records whether we are inside
such a run. -/
def collapseAux : Bool → List Char → List Char
  | _, [] => []
  | inRun, c :: rest =>
    if isSlugChar c then c :: collapseAux false rest
    else if inRun then collapseAux true rest
    else '-' :: collapseAux true rest

/-- `s.strip("-")`. -/
def stripHyphens (l : List Char) : List Char :=
  ((l.dropWhile (fun c => c = '-')).reverse.dropWhile (fun c => c = '-')).reverse

/-- The value of `s` just before the `or "app"` fallback in `to_slug`. -/
def slugCore (name : List Char) : List Char :=
  stripHyphens (collapseAux false ((stripWs name).map pyToLower))

/-- `to_slug` from the script. -/
def to_slug (name : List Char) : List Char :=
  if slugCore name = [] then cs "app" else slugCore name

/-! ## npm-safe name handling of the manifest patcher -/

/-- The character-class part of the identifier check: one `[a-z0-9]` then
any number of `[a-z0-9-_]`. -/
def npmSafeCore (slug : List Char) : Bool :=
  match slug with
  | [] => false
  | c :: rest => isSlugChar c && rest.all (fun d => isSlugChar d || d = '-' || d = '_')

/-- `re.match(r"^[a-z0-9][a-z0-9-_]*$", slug)` as a Bool.  Without
`re.MULTILINE`, Python's `$` matches at the end of the string or just before
a newline that ends the string, and the character classes cannot cross a
newline, so the regex accepts exactly: a well-formed body, or a well-formed
body followed by one final newline. -/
def npmSafe (slug : List Char) : Bool :=
  npmSafeCore slug ||
  (slug.getLast? = some '\n' && npmSafeCore slug.dropLast)

/-- `re.sub(r"[^a-z0-9-_]", "-", slug)`. -/
def sanitizeSlug (slug : List Char) : List Char :=
  slug.map (fun c => if isSlugChar c || c = '-' || c = '_' then c else '-')

/-- The value assigned to `j["name"]` in the manifest branch. -/
def npmName (slug : List Char) : List Char :=
  if npmSafe slug then slug else sanitizeSlug slug

/-! ## JSON values, `json.dumps(j, indent=2)` and `json.loads`

Objects and arrays are separate mutual inductives so that serialisation and
lookup are plain structural recursions.  Object entries keep insertion order;
`objInsert` has Python-dict assignment semantics (update in place, else append
at the end), which is also how the parser resolves duplicate keys. -/

mutual
inductive Json where
  | null : Json
  | bool : Bool → Json
  | num : Int → Json
  | str : List Char → Json
  | arr : JList → Json
  | obj : JObj → Json

inductive JList where
  | nil : JList
  | lcons : Json → JList → JList

inductive JObj where
  | nil : JObj
  | ocons : List Char → Json → JObj → JObj
end

/-- First (hence, after `objInsert`-built objects, only) value of a key. -/
def objLookup : JObj → List Char → Option Json
  | JObj.nil, _ => none
  | JObj.ocons k v rest, key => if k = key then some v else objLookup rest key

/-- Python-dict assignment `d[key] = v`: overwrite in place, else append. -/
def objInsert : JObj → List Char → Json → JObj
  | JObj.nil, key, v => JObj.ocons key v JObj.nil
  | JObj.ocons k w rest, key, v =>
    if k = key then JObj.ocons k v rest else JObj.ocons k w (objInsert rest key v)

/-- Append one element at the end of a `JList`. -/
def jlistSnoc : JList → Json → JList
  | JList.nil, j => JList.lcons j JList.nil
  | JList.lcons a rest, j => JList.lcons a (jlistSnoc rest j)

/-- Decimal digits of a natural number (fuel-based so it reduces). -/
def natDigitsAux : Nat → Nat → List Char
  | 0, _ => []
  | fuel + 1, n =>
    if n = 0 then [] else natDigitsAux fuel (n / 10) ++ [Char.ofNat (48 + n % 10)]

/-- Decimal representation of a natural number. -/
def natToChars (n : Nat) : List Char :=
  if n = 0 then ['0'] else natDigitsAux (n + 1) n

/-- Decimal representation of an integer, as Python prints an int. -/
def intToChars (i : Int) : List Char :=
  if i < 0 then '-' :: natToChars i.natAbs else natToChars i.natAbs

/-- Lowercase hexadecimal digit. -/
def hexDigitChar (n : Nat) : Char :=
  if n < 10 then Char.ofNat (48 + n) else Char.ofNat (87 + n)

/-- Four lowercase hex digits, as in a `\uXXXX` escape. -/
def hex4 (n : Nat) : List Char :=
  [hexDigitChar (n / 4096 % 16), hexDigitChar (n / 256 % 16),
   hexDigitChar (n / 16 % 16), hexDigitChar (n % 16)]

/-- String-character escaping of `json.dumps` with the default
`ensure_ascii=True`: printable ASCII other than quote and backslash is kept,
everything else is escaped. -/
def escapeChar (c : Char) : List Char :=
  if c = '"' then ['\\', '"']
  else if c = '\\' then ['\\', '\\']
  else if c = '\n' then ['\\', 'n']
  else if c = '\r' then ['\\', 'r']
  else if c = '\t' then ['\\', 't']
  else if c.toNat = 8 then ['\\', 'b']
  else if c.toNat = 12 then ['\\', 'f']
  else if 32 ≤ c.toNat ∧ c.toNat ≤ 126 then [c]
  else if c.toNat < 65536 then '\\' :: 'u' :: hex4 c.toNat
  else
    '\\' :: 'u' :: hex4 (55296 + (c.toNat - 65536) / 1024) ++
    '\\' :: 'u' :: hex4 (56320 + (c.toNat - 65536) % 1024)

/-- A JSON string literal with quotes and escapes. -/
def quoteStr (s : List Char) : List Char :=
  '"' :: s.foldr (fun c acc => escapeChar c ++ acc) ['"']

/-- Indentation of `json.dumps(…, indent=2)` at nesting level `lvl`. -/
def indentN (lvl : Nat) : List Char := List.replicate (2 * lvl) ' '

mutual
/-- `json.dumps(j, indent=2)` at nesting level `lvl`. -/
def dumpsVal (lvl : Nat) : Json → List Char
  | Json.null => cs "null"
  | Json.bool b => if b then cs "true" else cs "false"
  | Json.num i => intToChars i
  | Json.str s => quoteStr s
  | Json.arr JList.nil => cs "[]"
  | Json.arr (JList.lcons j rest) =>
    '[' :: '\n' :: dumpsItems (lvl + 1) (JList.lcons j rest) ++
    '\n' :: indentN lvl ++ [']']
  | Json.obj JObj.nil => cs "\x7b\x7d"
  | Json.obj (JObj.ocons k v rest) =>
    Char.ofNat 123 :: '\n' :: dumpsMembers (lvl + 1) (JObj.ocons k v rest) ++
    '\n' :: indentN lvl ++ [Char.ofNat 125]

/-- Array elements, one per line at level `lvl`, separated by `,\n`. -/
def dumpsItems (lvl : Nat) : JList → List Char
  | JList.nil => []
  | JList.lcons j JList.nil => indentN lvl ++ dumpsVal lvl j
  | JList.lcons j rest =>
    indentN lvl ++ dumpsVal lvl j ++ ',' :: '\n' :: dumpsItems lvl rest

/-- Object members `"key": value`, one per line, separated by `,\n`. -/
def dumpsMembers (lvl : Nat) : JObj → List Char
  | JObj.nil => []
  | JObj.ocons k v JObj.nil => indentN lvl ++ quoteStr k ++ ':' :: ' ' :: dumpsVal lvl v
  | JObj.ocons k v rest =>
    indentN lvl ++ quoteStr k ++ ':' :: ' ' :: dumpsVal lvl v ++
    ',' :: '\n' :: dumpsMembers lvl rest
end

/-- Top-level `json.dumps(j, indent=2)`. -/
def dumpsTop (j : Json) : List Char := dumpsVal 0 j

/-- JSON inter-token whitespace. -/
def skipJWs (l : List Char) : List Char :=
  l.dropWhile (fun c => c = ' ' ∨ c = '\t' ∨ c = '\n' ∨ c = '\r')

/-- Value of a hex digit. -/
def hexVal (c : Char) : Option Nat :=
  if 48 ≤ c.toNat ∧ c.toNat ≤ 57 then some (c.toNat - 48)
  else if 97 ≤ c.toNat ∧ c.toNat ≤ 102 then some (c.toNat - 87)
  else if 65 ≤ c.toNat ∧ c.toNat ≤ 70 then some (c.toNat - 55)
  else none

/-- Three-way parse outcome.  `done` and `failed` mirror `json.loads`
returning a value / raising exactly (on the ASCII text domain); `outside`
marks inputs the embedding does not represent — floating-point numbers, the
`NaN`/`Infinity`/`-Infinity` constants, lone-surrogate `\uXXXX` escapes, and
container nesting beyond `maxJsonDepth` (CPython's `json` raises
`RecursionError` only near the interpreter recursion limit, far above this
bound, so a `done`/`failed` verdict is always reached well before that).
No theorem below says anything about an `outside` input. -/
inductive PRes (α : Type) where
  | done : α → PRes α
  | failed : PRes α
  | outside : PRes α

/-- Map over a successful parse. -/
def PRes.map {α β : Type} (f : α → β) : PRes α → PRes β
  | PRes.done a => PRes.done (f a)
  | PRes.failed => PRes.failed
  | PRes.outside => PRes.outside

/-- Conservative bound on container nesting the embedding represents. -/
def maxJsonDepth : Nat := 64

/-- Body of a JSON string after the opening quote (strict mode: raw control
characters are rejected, as are malformed escapes; `\uXXXX` escapes are
decoded and surrogate pairs combined; a lone surrogate — which Python keeps
as an unpaired code point no Lean `Char` can hold — is `outside`). -/
def parseStrAux : Nat → List Char → PRes (List Char × List Char)
  | 0, _ => PRes.outside
  | fuel + 1, l =>
    match l with
    | [] => PRes.failed
    | '"' :: rest => PRes.done ([], rest)
    | '\\' :: e :: rest =>
      if e = '"' ∨ e = '\\' ∨ e = '/' then
        (parseStrAux fuel rest).map (fun pr => (e :: pr.1, pr.2))
      else if e = 'n' then (parseStrAux fuel rest).map (fun pr => ('\n' :: pr.1, pr.2))
      else if e = 'r' then (parseStrAux fuel rest).map (fun pr => ('\r' :: pr.1, pr.2))
      else if e = 't' then (parseStrAux fuel rest).map (fun pr => ('\t' :: pr.1, pr.2))
      else if e = 'b' then
        (parseStrAux fuel rest).map (fun pr => (Char.ofNat 8 :: pr.1, pr.2))
      else if e = 'f' then
        (parseStrAux fuel rest).map (fun pr => (Char.ofNat 12 :: pr.1, pr.2))
      else if e = 'u' then
        match rest with
        | h1 :: h2 :: h3 :: h4 :: rest2 =>
          match hexVal h1, hexVal h2, hexVal h3, hexVal h4 with
          | some a, some b, some c, some d =>
            let n := 4096 * a + 256 * b + 16 * c + d
            if 55296 ≤ n ∧ n ≤ 56319 then
              match rest2 with
              | '\\' :: 'u' :: k1 :: k2 :: k3 :: k4 :: rest3 =>
                match hexVal k1, hexVal k2, hexVal k3, hexVal k4 with
                | some a2, some b2, some c2, some d2 =>
                  let m := 4096 * a2 + 256 * b2 + 16 * c2 + d2
                  if 56320 ≤ m ∧ m ≤ 57343 then
                    (parseStrAux fuel rest3).map (fun pr =>
                      (Char.ofNat (65536 + (n - 55296) * 1024 + (m - 56320)) :: pr.1, pr.2))
                  else PRes.outside
                | _, _, _, _ => PRes.failed
              | '\\' :: 'u' :: _ => PRes.failed
              | _ => PRes.outside
            else if 56320 ≤ n ∧ n ≤ 57343 then PRes.outside
            else (parseStrAux fuel rest2).map (fun pr => (Char.ofNat n :: pr.1, pr.2))
          | _, _, _, _ => PRes.failed
        | _ => PRes.failed
      else PRes.failed
    | c :: rest =>
      if c.toNat < 32 then PRes.failed
      else (parseStrAux fuel rest).map (fun pr => (c :: pr.1, pr.2))

/-- A JSON string starting after its opening quote. -/
def parseStr (l : List Char) : PRes (List Char × List Char) :=
  parseStrAux (l.length + 1) l

/-- A decimal digit test. -/
def isDigitChar (c : Char) : Bool := decide (48 ≤ c.toNat ∧ c.toNat ≤ 57)

/-- Integer part of a JSON number, exactly the first group of the scanner's
`(-?(?:0|[1-9]\d*))(\.\d+)?([eE][-+]?\d+)?` (after a leading `0` no further
digits are consumed). -/
def parseNatNum (l : List Char) : Option (Nat × List Char) :=
  match l with
  | [] => none
  | c :: rest =>
    if c = '0' then some (0, rest)
    else if isDigitChar c then
      some ((rest.takeWhile isDigitChar).foldl (fun a d => 10 * a + (d.toNat - 48))
              (c.toNat - 48),
            rest.dropWhile isDigitChar)
    else none

/-- The optional fraction group `(\.\d+)?`: consumed only when fully
present, otherwise left in place. -/
def parseFrac (l : List Char) : Option (List Char) :=
  match l with
  | '.' :: d :: ds => if isDigitChar d then some (ds.dropWhile isDigitChar) else none
  | _ => none

/-- The optional exponent group `([eE][-+]?\d+)?`: consumed only when fully
present, otherwise left in place. -/
def parseExp (l : List Char) : Option (List Char) :=
  match l with
  | e :: s :: d :: ds =>
    if e = 'e' ∨ e = 'E' then
      if (s = '+' ∨ s = '-') ∧ isDigitChar d = true then some (ds.dropWhile isDigitChar)
      else if isDigitChar s then some ((d :: ds).dropWhile isDigitChar)
      else none
    else none
  | [e, d] => if (e = 'e' ∨ e = 'E') ∧ isDigitChar d = true then some [] else none
  | _ => none

/-- Outcome of the number scanner: an integer, a floating-point token (which
the embedding does not evaluate), or no number at this position. -/
inductive NumRes where
  | int : Int → List Char → NumRes
  | flt : List Char → NumRes
  | bad : NumRes

/-- A JSON number per the scanner's regular expression: integer part, then
the optional fraction and exponent groups; any consumed fraction or exponent
makes it a float token. -/
def parseNum (l : List Char) : NumRes :=
  match (match l with
         | '-' :: rest => (parseNatNum rest).map (fun pr => (-(pr.1 : Int), pr.2))
         | _ => (parseNatNum l).map (fun pr => ((pr.1 : Int), pr.2))) with
  | none => NumRes.bad
  | some (i, rest) =>
    match parseFrac rest with
    | some r2 =>
      match parseExp r2 with
      | some r3 => NumRes.flt r3
      | none => NumRes.flt r2
    | none =>
      match parseExp rest with
      | some r3 => NumRes.flt r3
      | none => NumRes.int i rest

mutual
/-- One JSON value: fuel forces termination (it always exceeds the number of
parser calls any input can cause, and running out yields `outside`, never a
verdict); `depth` is the remaining container-nesting budget. -/
def parseVal : Nat → Nat → List Char → PRes (Json × List Char)
  | 0, _, _ => PRes.outside
  | fuel + 1, depth, l =>
    match skipJWs l with
    | [] => PRes.failed
    | c :: rest =>
      if c = Char.ofNat 123 then
        match depth with
        | 0 => PRes.outside
        | depth' + 1 =>
          match skipJWs rest with
          | d :: _ =>
            if d = Char.ofNat 125 then
              match skipJWs rest with
              | _ :: r2 => PRes.done (Json.obj JObj.nil, r2)
              | [] => PRes.failed
            else parseMembers fuel depth' JObj.nil rest
          | [] => PRes.failed
      else if c = '[' then
        match depth with
        | 0 => PRes.outside
        | depth' + 1 =>
          match skipJWs rest with
          | d :: _ =>
            if d = ']' then
              match skipJWs rest with
              | _ :: r2 => PRes.done (Json.arr JList.nil, r2)
              | [] => PRes.failed
            else parseItems fuel depth' JList.nil rest
          | [] => PRes.failed
      else if c = '"' then
        (parseStr rest).map (fun pr => (Json.str pr.1, pr.2))
      else if c = 't' then
        match rest with
        | 'r' :: 'u' :: 'e' :: r2 => PRes.done (Json.bool true, r2)
        | _ => PRes.failed
      else if c = 'f' then
        match rest with
        | 'a' :: 'l' :: 's' :: 'e' :: r2 => PRes.done (Json.bool false, r2)
        | _ => PRes.failed
      else if c = 'n' then
        match rest with
        | 'u' :: 'l' :: 'l' :: r2 => PRes.done (Json.null, r2)
        | _ => PRes.failed
      else if c = 'N' then
        match rest with
        | 'a' :: 'N' :: _ => PRes.outside
        | _ => PRes.failed
      else if c = 'I' then
        match rest with
        | 'n' :: 'f' :: 'i' :: 'n' :: 'i' :: 't' :: 'y' :: _ => PRes.outside
        | _ => PRes.failed
      else if c = '-' then
        match rest with
        | 'I' :: 'n' :: 'f' :: 'i' :: 'n' :: 'i' :: 't' :: 'y' :: _ => PRes.outside
        | _ =>
          match parseNum (c :: rest) with
          | NumRes.int i r => PRes.done (Json.num i, r)
          | NumRes.flt _ => PRes.outside
          | NumRes.bad => PRes.failed
      else
        match parseNum (c :: rest) with
        | NumRes.int i r => PRes.done (Json.num i, r)
        | NumRes.flt _ => PRes.outside
        | NumRes.bad => PRes.failed

/-- Members of an object after its `{`, accumulating with dict semantics. -/
def parseMembers : Nat → Nat → JObj → List Char → PRes (Json × List Char)
  | 0, _, _, _ => PRes.outside
  | fuel + 1, depth, acc, l =>
    match skipJWs l with
    | '"' :: rest =>
      match parseStr rest with
      | PRes.done (k, r2) =>
        match skipJWs r2 with
        | ':' :: r3 =>
          match parseVal fuel depth r3 with
          | PRes.done (v, r4) =>
            match skipJWs r4 with
            | ',' :: r5 => parseMembers fuel depth (objInsert acc k v) r5
            | d :: r5 =>
              if d = Char.ofNat 125 then PRes.done (Json.obj (objInsert acc k v), r5)
              else PRes.failed
            | [] => PRes.failed
          | PRes.failed => PRes.failed
          | PRes.outside => PRes.outside
        | _ => PRes.failed
      | PRes.failed => PRes.failed
      | PRes.outside => PRes.outside
    | _ => PRes.failed

/-- Elements of an array after its `[`. -/
def parseItems : Nat → Nat → JList → List Char → PRes (Json × List Char)
  | 0, _, _, _ => PRes.outside
  | fuel + 1, depth, acc, l =>
    match parseVal fuel depth l with
    | PRes.done (v, r) =>
      match skipJWs r with
      | ',' :: r2 => parseItems fuel depth (jlistSnoc acc v) r2
      | d :: r2 => if d = ']' then PRes.done (Json.arr (jlistSnoc acc v), r2) else PRes.failed
      | [] => PRes.failed
    | PRes.failed => PRes.failed
    | PRes.outside => PRes.outside
end

/-- `json.loads`: the whole input, with surrounding whitespace, must be one
JSON value. -/
def parseJson (s : List Char) : PRes Json :=
  match parseVal (s.length + 2) maxJsonDepth s with
  | PRes.done (j, rest) => if skipJWs rest = [] then PRes.done j else PRes.failed
  | PRes.failed => PRes.failed
  | PRes.outside => PRes.outside

/-! ## The manifest patcher and the per-file pipeline -/

/-- Key `"name"`. -/
def nameKey : List Char := cs "name"

/-- `isinstance(j, dict) and "name" in j and isinstance(j["name"], str)`. -/
def manifestEligible : Json → Bool
  | Json.obj o =>
    match objLookup o nameKey with
    | some (Json.str _) => true
    | _ => false
  | _ => false

/-- `j["name"] = v` on a parsed value (only objects are ever eligible). -/
def setName : Json → Json → Json
  | Json.obj o, v => Json.obj (objInsert o nameKey v)
  | j, _ => j

/-- The `package.json` special case of `main`: parse the already-substituted
text; on success with an eligible dict overwrite the name field and
re-serialise with 2-space indentation plus a trailing newline; on a parse
failure (the `except: pass` path) leave the substituted text as-is.  The
`outside` branch covers inputs the JSON embedding does not represent; its
value is a placeholder that no theorem relies on. -/
def pkgStep (slug : List Char) (s2 : List Char) : List Char :=
  match parseJson s2 with
  | PRes.done j =>
    if manifestEligible j then dumpsTop (setName j (Json.str (npmName slug))) ++ ['\n']
    else s2
  | PRes.failed => s2
  | PRes.outside => s2

/-- Candidate new content for one file body: generic substitution, then the
manifest patcher when the base name is `package.json`. -/
def processContent (m : List (List PItem × List Char)) (slug : List Char)
    (isPkg : Bool) (s : List Char) : List Char :=
  let s2 := replace_in_text s m
  if isPkg then pkgStep slug s2 else s2

/-! ## Text classification and the walk -/

/-- A regular file: base name and decoded content. -/
structure RFile where
  name : List Char
  content : List Char
deriving DecidableEq

/-- `pathlib.Path(name).suffix`: from the last dot, provided it is neither the
first nor the last character of the base name. -/
def suffixOf (name : List Char) : List Char :=
  let r := name.reverse
  let ext := r.takeWhile (fun c => !(c = '.'))
  match r.dropWhile (fun c => !(c = '.')) with
  | [] => []
  | _ :: tl => if tl = [] then [] else if ext = [] then [] else '.' :: ext.reverse

/-- `TEXT_EXTS` from the script. -/
def TEXT_EXTS : List (List Char) :=
  [cs ".js", cs ".jsx", cs ".ts", cs ".tsx", cs ".mjs", cs ".cjs", cs ".json",
   cs ".md", cs ".yml", cs ".yaml", cs ".sh", cs ".env", cs ".env.example",
   cs ".sql", cs ".prisma", cs ".css", cs ".html", cs ".txt", cs ".ini",
   cs ".conf", cs ".Dockerfile", cs ".gitignore", cs ".gitattributes",
   cs ".graphql", cs ".proto", cs ".toml"]

/-- `EXCLUDE_DIRS` from the script. -/
def EXCLUDE_DIRS : List (List Char) :=
  [cs ".git", cs "node_modules", cs ".next", cs "dist", cs "build", cs ".cache",
   cs ".turbo", cs ".venv", cs "__pycache__", cs "coverage", cs ".idea",
   cs ".vscode", cs ".pnpm-store"]

/-- The two extensionless names accepted by `is_text_file`. -/
def specialTextNames : List (List Char) := [cs "Dockerfile", cs "Makefile"]

/-- Null byte in a character list (bytes coincide with characters for the
ASCII contents the model works with). -/
def hasNullByte (l : List Char) : Bool := l.any (fun c => c.toNat = 0)

/-- `is_text_file`: allow-listed suffix or name short-circuits to text; only
otherwise are the first 1024 bytes sniffed for a null byte.  (Unreadable
files, which the script also rejects here, are outside the model.) -/
def is_text_file (f : RFile) : Bool :=
  if TEXT_EXTS.contains (suffixOf f.name) || specialTextNames.contains f.name then true
  else !hasNullByte (f.content.take 1024)

/-- One file of the main loop: `none` when the file is skipped or unchanged,
`some s2` when the script would count it and (outside dry-run) write `s2`. -/
def processFile (m : List (List PItem × List Char)) (slug : List Char)
    (f : RFile) : Option (List Char) :=
  if is_text_file f then
    let s2 := processContent m slug (f.name = cs "package.json") f.content
    if s2 = f.content then none else some s2
  else none

mutual
/-- A directory: its regular files and its subdirectories. -/
inductive DirTree where
  | node : List RFile → Forest → DirTree

/-- Named subdirectories, in walk order. -/
inductive Forest where
  | nil : Forest
  | fcons : List Char → DirTree → Forest → Forest
end

/-- A path: directory components from the walk root, then a base name. -/
abbrev FPath := List (List Char) × List Char

/-- Outcome of processing the files of one directory. -/
structure FilesOut where
  count : Nat
  changed : List FPath
  visited : List FPath
  result : List RFile

/-- The inner `for f in fs` loop of `main` over one directory's files. -/
def runFiles (m : List (List PItem × List Char)) (slug : List Char) (dry : Bool) :
    List RFile → FilesOut
  | [] => ⟨0, [], [], []⟩
  | f :: rest =>
    let tail := runFiles m slug dry rest
    match processFile m slug f with
    | some s2 =>
      ⟨tail.count + 1, ([], f.name) :: tail.changed, ([], f.name) :: tail.visited,
       (if dry then f else ⟨f.name, s2⟩) :: tail.result⟩
    | none => ⟨tail.count, tail.changed, ([], f.name) :: tail.visited, f :: tail.result⟩

/-- Outcome of walking one directory tree. -/
structure TreeOut where
  count : Nat
  changed : List FPath
  visited : List FPath
  result : DirTree

/-- Outcome of walking a list of subdirectories. -/
structure ForestOut where
  count : Nat
  changed : List FPath
  visited : List FPath
  result : Forest

/-- Prefix every reported path with the subdirectory component. -/
def prefixPaths (d : List Char) (l : List FPath) : List FPath :=
  l.map (fun pr => (d :: pr.1, pr.2))

mutual
/-- `os.walk` with in-place pruning: the files of this directory are
processed, then the non-excluded subdirectories are descended into.  Excluded
subtrees are kept verbatim in the result and contribute nothing. -/
def runTree (m : List (List PItem × List Char)) (slug : List Char) (dry : Bool) :
    DirTree → TreeOut
  | DirTree.node files fo =>
    let fr := runFiles m slug dry files
    let sr := runForest m slug dry fo
    ⟨fr.count + sr.count, fr.changed ++ sr.changed, fr.visited ++ sr.visited,
     DirTree.node fr.result sr.result⟩

/-- Walk the subdirectories, pruning excluded names before descent. -/
def runForest (m : List (List PItem × List Char)) (slug : List Char) (dry : Bool) :
    Forest → ForestOut
  | Forest.nil => ⟨0, [], [], Forest.nil⟩
  | Forest.fcons d t rest =>
    let tr := runForest m slug dry rest
    if EXCLUDE_DIRS.contains d then
      ⟨tr.count, tr.changed, tr.visited, Forest.fcons d t tr.result⟩
    else
      let r := runTree m slug dry t
      ⟨r.count + tr.count, prefixPaths d r.changed ++ tr.changed,
       prefixPaths d r.visited ++ tr.visited, Forest.fcons d r.result tr.result⟩
end

mutual
/-- Content of the file at a path in a tree. -/
def findFile : DirTree → List (List Char) → List Char → Option (List Char)
  | DirTree.node files _, [], fname =>
    match files.find? (fun f => f.name = fname) with
    | some f => some f.content
    | none => none
  | DirTree.node _ fo, d :: ds, fname => findForest fo d ds fname

/-- Content of the file at a path under one of the subdirectories. -/
def findForest : Forest → List Char → List (List Char) → List Char → Option (List Char)
  | Forest.nil, _, _, _ => none
  | Forest.fcons n t rest, d, ds, fname =>
    if n = d then findFile t ds fname else findForest rest d ds fname
end

/-! ## Concrete instances used by the evaluation theorems and witnesses -/

/-- The running example's new project name. -/
def acmeName : List Char := cs "Acme Rocket App"

/-- Its default derived slug. -/
def acmeSlug : List Char := to_slug acmeName

/-- The mapping list `main` builds for it. -/
def acmeMappings : List (List PItem × List Char) := build_mappings acmeName acmeSlug

/-- An allow-listed markdown file whose content has an early null byte. -/
def mdNullFile : RFile := ⟨cs "x.md", cs "oneshot" ++ [Char.ofNat 0]⟩

/-! ## C1 -/

/-- C1: the claim says the slug-style variants are replaced with the slug
(`"oneshot"` becomes `"acme-rocket-app"`, `"one_shot"` becomes
`"acme_rocket_app"`).  Evaluating the compiled rule sequence of `main` shows
that both are instead replaced with the friendly name `"Acme Rocket App"`:
the slug-variant patterns already occur in `DEFAULT_FROM_PATTERNS`, whose
rules run first with the friendly name as replacement, so the dedicated slug
rules appended afterwards (commented `→ slug` in the source) can never fire
on original text. -/
theorem claim_C1_slug_rules_shadowed :
    acmeSlug = cs "acme-rocket-app" ∧
    replace_in_text (cs "oneshot") acmeMappings = acmeName ∧
    replace_in_text (cs "one_shot") acmeMappings = acmeName ∧
    (acmeName == cs "acme-rocket-app") = false ∧
    (acmeName == cs "acme_rocket_app") = false := by decide

/-! ## C2 -/

/-- C2 counterexample: a file whose first 1024 bytes contain a null byte but
whose extension `.md` is allow-listed is classified as text without any
content sniff, and the tool does modify it — refuting "never modifies that
file's content, regardless of the file's name or extension". -/
theorem claim_C2_counterexample :
    hasNullByte (mdNullFile.content.take 1024) = true ∧
    is_text_file mdNullFile = true ∧
    processFile acmeMappings acmeSlug mdNullFile
      = some (cs "Acme Rocket App" ++ [Char.ofNat 0]) := by decide

/-- C2 (amended): for every file whose suffix and base name are outside the
allow-list, a null byte within the first 1024 bytes makes the classifier
reject the file, so the tool never modifies it. -/
theorem claim_C2_amended : ∀ (m : List (List PItem × List Char)) (slug : List Char)
    (f : RFile),
    TEXT_EXTS.contains (suffixOf f.name) = false →
    specialTextNames.contains f.name = false →
    hasNullByte (f.content.take 1024) = true →
    processFile m slug f = none := by
  intro m slug f h1 h2 h3
  have ht : is_text_file f = false := by
    unfold is_text_file
    rw [h1, h2, h3]
    decide
  simp [processFile, ht]

/-- C2 witness: a concrete non-allow-listed binary file is left alone. -/
theorem claim_C2_amended_witness :
    processFile acmeMappings acmeSlug ⟨cs "data.bin", cs "oneshot" ++ [Char.ofNat 0]⟩
      = none :=
  claim_C2_amended acmeMappings acmeSlug _ (by decide) (by decide) (by decide)

/-! ## C4 and C7: the manifest patcher -/

/-- Looking up any other key is unaffected by the name assignment. -/
theorem objLookup_objInsert_ne : ∀ (o : JObj) (key k : List Char) (v : Json),
    k ≠ key → objLookup (objInsert o key v) k = objLookup o k
  | JObj.nil, key, k, v, hk => by
    have hk' : ¬ key = k := fun h => hk h.symm
    simp [objInsert, objLookup, hk']
  | JObj.ocons k' w rest, key, k, v, hk => by
    have hk' : ¬ key = k := fun h => hk h.symm
    by_cases h' : k' = key
    · subst h'
      simp only [objInsert, if_pos rfl]
      simp [objLookup, hk']
    · simp only [objInsert, if_neg h']
      by_cases h'' : k' = k
      · simp [objLookup, h'']
      · simp [objLookup, h'', objLookup_objInsert_ne rest key k v hk]

/-- C4 counterexample: the claim reads the identifier check as "the slug
consists only of `[a-z0-9]` then `[a-z0-9-_]`", so at slug `"ab\n"` it
asserts the sanitize branch (`"ab-"`).  The code's `re.match` succeeds there
— Python's `$` also matches just before a newline that ends the string — so
the name is written verbatim, newline included. -/
theorem claim_C4_counterexample :
    npmSafe (cs "ab\n") = true ∧
    npmName (cs "ab\n") = cs "ab\n" ∧
    sanitizeSlug (cs "ab\n") = cs "ab-" ∧
    (npmName (cs "ab\n") == sanitizeSlug (cs "ab\n")) = false ∧
    pkgStep (cs "ab\n") (cs "\x7b\"name\": \"x\"\x7d")
      = cs "\x7b\n  \"name\": \"ab\\n\"\n\x7d\n" := by decide

/-- C4 (amended): when the generically-substituted text of a `package.json`
parses as an object with a string-valued `"name"`, the final content is that
object with `"name"` overwritten — by the slug itself when
`re.match(r"^[a-z0-9][a-z0-9-_]*$", slug)` succeeds, which also accepts (and
keeps verbatim) a well-formed body followed by one trailing newline, else by
the sanitised slug — re-serialised with 2-space indentation and one trailing
newline, all other keys looking up unchanged. -/
theorem claim_C4_manifest_patch : ∀ (m : List (List PItem × List Char))
    (slug s : List Char) (o : JObj) (v : List Char),
    parseJson (replace_in_text s m) = PRes.done (Json.obj o) →
    objLookup o nameKey = some (Json.str v) →
    processContent m slug true s
        = dumpsTop (Json.obj (objInsert o nameKey (Json.str (npmName slug)))) ++ ['\n'] ∧
    npmName slug = (if npmSafe slug then slug else sanitizeSlug slug) ∧
    (∀ k, k ≠ nameKey →
      objLookup (objInsert o nameKey (Json.str (npmName slug))) k = objLookup o k) := by
  intro m slug s o v hparse hname
  refine ⟨?_, rfl, fun k hk => objLookup_objInsert_ne o nameKey k _ hk⟩
  simp [processContent, pkgStep, hparse, manifestEligible, hname, setName]

/-- C4 witness: the spec's example manifest, with `--to "Acme Rocket App"`
and the derived slug, produces exactly the pretty-printed object with the
name overwritten and a single trailing newline. -/
theorem claim_C4_manifest_patch_witness :
    processContent acmeMappings acmeSlug true
        (cs "\x7b\"name\": \"one-shot-app\", \"version\": \"1.0.0\"\x7d")
      = cs "\x7b\n  \"name\": \"acme-rocket-app\",\n  \"version\": \"1.0.0\"\n\x7d\n" := by
  have h := claim_C4_manifest_patch acmeMappings acmeSlug
    (cs "\x7b\"name\": \"one-shot-app\", \"version\": \"1.0.0\"\x7d")
    (JObj.ocons (cs "name") (Json.str (cs "Acme Rocket App-app"))
      (JObj.ocons (cs "version") (Json.str (cs "1.0.0")) JObj.nil))
    (cs "Acme Rocket App-app") rfl rfl
  exact h.1.trans rfl

/-- C7: when `json.loads` on the substituted text of a `package.json` fails
(the model's `PRes.failed` verdict matches that exactly on its domain), or
parsing yields something that is not an object with a string-valued
`"name"`, the manifest step leaves the generically-substituted text exactly
as-is, raising nothing. -/
theorem claim_C7_manifest_soft_fail : ∀ (m : List (List PItem × List Char))
    (slug s : List Char),
    (parseJson (replace_in_text s m) = PRes.failed ∨
     ∃ j, parseJson (replace_in_text s m) = PRes.done j ∧ manifestEligible j = false) →
    processContent m slug true s = replace_in_text s m := by
  intro m slug s h
  rcases h with h | ⟨j, hj, helig⟩
  · simp [processContent, pkgStep, h]
  · simp [processContent, pkgStep, hj, helig]

/-- C7 witness: a `package.json` whose content is not JSON at all is passed
through with only the generic substitution applied. -/
theorem claim_C7_manifest_soft_fail_witness :
    processContent acmeMappings acmeSlug true (cs "oneshot is great")
      = replace_in_text (cs "oneshot is great") acmeMappings :=
  claim_C7_manifest_soft_fail acmeMappings acmeSlug _ (Or.inl rfl)

/-! ## Structure of parsed JSON values

The second-run theorem for C3 needs one nontrivial fact about the manifest
patcher: re-serialising a patched object and parsing it again yields the same
object, so patching twice is patching once.  The lemmas of this section build
that round trip: well-formedness (recursively duplicate-free keys) and a
nesting-depth bound, both enjoyed by every parser result; a call-count
measure bounding the fuel a re-parse needs; and the round trip itself. -/

/-- Whether an object binds a key. -/
def hasKeyO : JObj → List Char → Bool
  | JObj.nil, _ => false
  | JObj.ocons k _ rest, key => k = key || hasKeyO rest key

mutual
/-- Well-formed values: every object, recursively, has distinct keys. -/
def wfJson : Json → Bool
  | Json.arr l => wfList l
  | Json.obj o => wfObj o
  | _ => true

/-- Well-formed array elements. -/
def wfList : JList → Bool
  | JList.nil => true
  | JList.lcons j rest => wfJson j && wfList rest

/-- Well-formed members with distinct keys. -/
def wfObj : JObj → Bool
  | JObj.nil => true
  | JObj.ocons k v rest => !hasKeyO rest k && wfJson v && wfObj rest
end

mutual
/-- Container-nesting depth of a value. -/
def jdepth : Json → Nat
  | Json.arr l => 1 + jdepthList l
  | Json.obj o => 1 + jdepthObj o
  | _ => 0

/-- Depth over array elements. -/
def jdepthList : JList → Nat
  | JList.nil => 0
  | JList.lcons j rest => max (jdepth j) (jdepthList rest)

/-- Depth over member values. -/
def jdepthObj : JObj → Nat
  | JObj.nil => 0
  | JObj.ocons _ v rest => max (jdepth v) (jdepthObj rest)
end

mutual
/-- Number of parser calls needed to re-read a printed value. -/
def callsJson : Json → Nat
  | Json.arr l => 1 + callsList l
  | Json.obj o => 1 + callsObj o
  | _ => 1

/-- Call count over array elements. -/
def callsList : JList → Nat
  | JList.nil => 0
  | JList.lcons j rest => 1 + callsJson j + callsList rest

/-- Call count over members. -/
def callsObj : JObj → Nat
  | JObj.nil => 0
  | JObj.ocons _ v rest => 1 + callsJson v + callsObj rest
end

/-- Concatenation of member lists. -/
def objApp : JObj → JObj → JObj
  | JObj.nil, o => o
  | JObj.ocons k v rest, o => JObj.ocons k v (objApp rest o)

/-- Concatenating nothing on the right. -/
theorem objApp_nil_right : ∀ o : JObj, objApp o JObj.nil = o
  | JObj.nil => rfl
  | JObj.ocons k v rest => by simp [objApp, objApp_nil_right rest]

/-- Concatenation is associative. -/
theorem objApp_assoc : ∀ (a b c : JObj),
    objApp (objApp a b) c = objApp a (objApp b c)
  | JObj.nil, b, c => rfl
  | JObj.ocons k v rest, b, c => by simp [objApp, objApp_assoc rest b c]

/-- Appended keys are the keys of both parts. -/
theorem hasKeyO_objApp : ∀ (o o' : JObj) (x : List Char),
    hasKeyO (objApp o o') x = (hasKeyO o x || hasKeyO o' x)
  | JObj.nil, o', x => by simp [objApp, hasKeyO]
  | JObj.ocons k v rest, o', x => by
    simp [objApp, hasKeyO, hasKeyO_objApp rest o' x, Bool.or_assoc]

/-- Inserting records the key. -/
theorem hasKeyO_objInsert : ∀ (o : JObj) (k x : List Char) (v : Json),
    hasKeyO (objInsert o k v) x = (hasKeyO o x || decide (x = k))
  | JObj.nil, k, x, v => by
    simp only [objInsert, hasKeyO, Bool.or_false, Bool.false_or]
    by_cases h : x = k
    · subst h; simp
    · have h' : ¬ k = x := fun hh => h hh.symm
      simp [h, h']
  | JObj.ocons k' w rest, k, x, v => by
    by_cases h : k' = k
    · subst h
      simp only [objInsert, if_pos rfl, hasKeyO]
      by_cases hx : x = k'
      · subst hx; simp
      · have hx' : ¬ k' = x := fun hh => hx hh.symm
        simp [hx, hx']
    · simp only [objInsert, if_neg h, hasKeyO,
        hasKeyO_objInsert rest k x v, Bool.or_assoc]

/-- Insertion preserves well-formedness. -/
theorem wfObj_objInsert : ∀ (o : JObj) (k : List Char) (v : Json),
    wfObj o = true → wfJson v = true → wfObj (objInsert o k v) = true
  | JObj.nil, k, v, _, hv => by simp [objInsert, wfObj, hasKeyO, hv]
  | JObj.ocons k' w rest, k, v, ho, hv => by
    simp only [wfObj, Bool.and_eq_true, Bool.not_eq_true'] at ho
    obtain ⟨⟨hk', hw⟩, hrest⟩ := ho
    by_cases h : k' = k
    · subst h
      simp [objInsert, wfObj, hk', hv, hrest]
    · simp only [objInsert, if_neg h, wfObj, Bool.and_eq_true, Bool.not_eq_true']
      refine ⟨⟨?_, hw⟩, wfObj_objInsert rest k v hrest hv⟩
      rw [hasKeyO_objInsert rest k k' v]
      simp [hk', fun hh : k' = k => h hh]

/-- Insertion only raises the depth to the inserted value's. -/
theorem jdepthObj_objInsert : ∀ (o : JObj) (k : List Char) (v : Json),
    jdepthObj (objInsert o k v) ≤ max (jdepthObj o) (jdepth v)
  | JObj.nil, k, v => by
    simp only [objInsert, jdepthObj]
    omega
  | JObj.ocons k' w rest, k, v => by
    by_cases h : k' = k
    · subst h
      simp only [objInsert, if_pos rfl, jdepthObj]
      omega
    · simp only [objInsert, if_neg h, jdepthObj]
      have := jdepthObj_objInsert rest k v
      omega

/-- Looking up the key just inserted. -/
theorem objLookup_objInsert_self : ∀ (o : JObj) (k : List Char) (v : Json),
    objLookup (objInsert o k v) k = some v
  | JObj.nil, k, v => by simp [objInsert, objLookup]
  | JObj.ocons k' w rest, k, v => by
    by_cases h : k' = k
    · subst h; simp [objInsert, objLookup]
    · simp [objInsert, objLookup, h, objLookup_objInsert_self rest k v]

/-- Inserting the same value twice is inserting it once. -/
theorem objInsert_objInsert : ∀ (o : JObj) (k : List Char) (v : Json),
    objInsert (objInsert o k v) k v = objInsert o k v
  | JObj.nil, k, v => by simp [objInsert]
  | JObj.ocons k' w rest, k, v => by
    by_cases h : k' = k
    · subst h; simp [objInsert]
    · simp [objInsert, h, objInsert_objInsert rest k v]

/-- The accumulator fold the object parser performs. -/
def objFold : JObj → JObj → JObj
  | acc, JObj.nil => acc
  | acc, JObj.ocons k v rest => objFold (objInsert acc k v) rest

/-- Inserting an absent key appends it. -/
theorem objInsert_of_not_hasKey : ∀ (o : JObj) (k : List Char) (v : Json),
    hasKeyO o k = false → objInsert o k v = objApp o (JObj.ocons k v JObj.nil)
  | JObj.nil, k, v, _ => by simp [objInsert, objApp]
  | JObj.ocons k' w rest, k, v, h => by
    simp only [hasKeyO, Bool.or_eq_false_iff, decide_eq_false_iff_not] at h
    simp [objInsert, h.1, objApp, objInsert_of_not_hasKey rest k v h.2]

/-- On key-disjoint arguments the parser fold is concatenation. -/
theorem objFold_eq_objApp : ∀ (o acc : JObj),
    wfObj o = true → (∀ x, hasKeyO o x = true → hasKeyO acc x = false) →
    objFold acc o = objApp acc o
  | JObj.nil, acc, _, _ => by rw [objApp_nil_right acc]; simp [objFold]
  | JObj.ocons k v rest, acc, hwf, hdisj => by
    simp only [wfObj, Bool.and_eq_true, Bool.not_eq_true'] at hwf
    obtain ⟨⟨hk, hv⟩, hrest⟩ := hwf
    have hacck : hasKeyO acc k = false :=
      hdisj k (by simp [hasKeyO])
    have step : objInsert acc k v = objApp acc (JObj.ocons k v JObj.nil) :=
      objInsert_of_not_hasKey acc k v hacck
    have hdisj' : ∀ x, hasKeyO rest x = true →
        hasKeyO (objApp acc (JObj.ocons k v JObj.nil)) x = false := by
      intro x hx
      rw [hasKeyO_objApp]
      have h1 : hasKeyO acc x = false := hdisj x (by simp [hasKeyO, hx])
      have h2 : ¬ k = x := by
        intro hxk
        subst hxk
        rw [hx] at hk
        exact Bool.noConfusion hk
      simp [h1, hasKeyO, h2]
    calc objFold acc (JObj.ocons k v rest)
        = objFold (objInsert acc k v) rest := rfl
      _ = objFold (objApp acc (JObj.ocons k v JObj.nil)) rest := by rw [step]
      _ = objApp (objApp acc (JObj.ocons k v JObj.nil)) rest :=
          objFold_eq_objApp rest _ hrest hdisj'
      _ = objApp acc (JObj.ocons k v rest) := by
          rw [objApp_assoc]
          rfl

/-- The parser fold from an empty accumulator rebuilds a well-formed object. -/
theorem objFold_nil (o : JObj) (h : wfObj o = true) : objFold JObj.nil o = o := by
  rw [objFold_eq_objApp o JObj.nil h (fun x _ => rfl)]
  rfl

/-- Concatenation of element lists. -/
def jlistApp : JList → JList → JList
  | JList.nil, l => l
  | JList.lcons j rest, l => JList.lcons j (jlistApp rest l)

/-- Concatenating nothing on the right. -/
theorem jlistApp_nil_right : ∀ l : JList, jlistApp l JList.nil = l
  | JList.nil => rfl
  | JList.lcons j rest => by simp [jlistApp, jlistApp_nil_right rest]

/-- Concatenation is associative. -/
theorem jlistApp_assoc : ∀ (a b c : JList),
    jlistApp (jlistApp a b) c = jlistApp a (jlistApp b c)
  | JList.nil, b, c => rfl
  | JList.lcons j rest, b, c => by simp [jlistApp, jlistApp_assoc rest b c]

/-- The accumulator fold the array parser performs. -/
def jlistFold : JList → JList → JList
  | acc, JList.nil => acc
  | acc, JList.lcons j rest => jlistFold (jlistSnoc acc j) rest

/-- Snoc is concatenation with a singleton. -/
theorem jlistSnoc_eq_app : ∀ (acc : JList) (j : Json),
    jlistSnoc acc j = jlistApp acc (JList.lcons j JList.nil)
  | JList.nil, j => rfl
  | JList.lcons a rest, j => by simp [jlistSnoc, jlistApp, jlistSnoc_eq_app rest j]

/-- The array fold is concatenation. -/
theorem jlistFold_eq_app : ∀ (l acc : JList), jlistFold acc l = jlistApp acc l
  | JList.nil, acc => by rw [jlistApp_nil_right acc]; simp [jlistFold]
  | JList.lcons j rest, acc => by
    calc jlistFold acc (JList.lcons j rest)
        = jlistFold (jlistSnoc acc j) rest := rfl
      _ = jlistApp (jlistSnoc acc j) rest := jlistFold_eq_app rest _
      _ = jlistApp (jlistApp acc (JList.lcons j JList.nil)) rest := by
          rw [jlistSnoc_eq_app]
      _ = jlistApp acc (JList.lcons j rest) := by
          rw [jlistApp_assoc]
          rfl

/-! ## Round-trip: serialising then re-parsing

`pkgStep` is idempotent because re-parsing the text it writes recovers the
value it printed.  The lemmas of this section prove that round trip. -/

/-- A continuation after which the number scanner stops: empty, or headed by
a character that can extend neither the integer part nor a fraction or
exponent group. -/
def stopTok : List Char → Bool
  | [] => true
  | c :: _ => !(isDigitChar c || c = '.' || c = 'e' || c = 'E')

/-- Heads every printed value starts with: not inter-token whitespace and not
a container closer. -/
def goodHead (c : Char) : Bool :=
  !(c.toNat = 32 || c.toNat = 9 || c.toNat = 10 || c.toNat = 13 ||
    c.toNat = 93 || c.toNat = 125)

/-- The escaped body of a printed string literal, without the quotes. -/
def escAll (s : List Char) : List Char :=
  s.foldr (fun c acc => escapeChar c ++ acc) []

/-- Unfolding `escAll` one character. -/
theorem escAll_cons (c : Char) (s : List Char) :
    escAll (c :: s) = escapeChar c ++ escAll s := rfl

/-- The fold under `quoteStr` is `escAll` with a suffix. -/
theorem foldr_esc_eq : ∀ (s : List Char) (r : List Char),
    s.foldr (fun c acc => escapeChar c ++ acc) r = escAll s ++ r
  | [], r => rfl
  | c :: s, r => by
    simp only [List.foldr_cons, foldr_esc_eq s r, escAll_cons, List.append_assoc]

/-- A printed string literal followed by a continuation. -/
theorem quoteStr_append (s R : List Char) :
    quoteStr s ++ R = '"' :: (escAll s ++ '"' :: R) := by
  simp [quoteStr, foldr_esc_eq, List.append_assoc]

/-- Every character escapes to at least one character. -/
theorem escapeChar_length_pos (c : Char) : 1 ≤ (escapeChar c).length := by
  unfold escapeChar
  split_ifs <;> simp [hex4]

/-- Escaping does not shorten a string. -/
theorem escAll_length : ∀ s : List Char, s.length ≤ (escAll s).length
  | [] => Nat.le_refl 0
  | c :: s => by
    simp only [escAll_cons, List.length_append, List.length_cons]
    have h1 := escapeChar_length_pos c
    have h2 := escAll_length s
    omega

/-- A `Char`'s code point avoids the surrogate range. -/
theorem char_valid_ranges (c : Char) :
    c.toNat < 55296 ∨ (57343 < c.toNat ∧ c.toNat < 1114112) := by
  have h := c.valid
  unfold UInt32.isValidChar Nat.isValidChar at h
  rcases h with h | ⟨h1, h2⟩
  · left; exact h
  · right; exact ⟨h1, h2⟩

/-- `Char.ofNat` preserves a valid code point. -/
theorem char_toNat_ofNat (n : Nat)
    (h : n < 55296 ∨ (57343 < n ∧ n < 1114112)) : (Char.ofNat n).toNat = n := by
  unfold Char.ofNat
  rw [dif_pos]
  · rfl
  · unfold Nat.isValidChar
    exact h

/-- `hexVal` inverts `hexDigitChar` on nibbles. -/
theorem hexVal_hexDigitChar : ∀ k, k < 16 → hexVal (hexDigitChar k) = some k := by
  decide

/-- Whitespace skipping stops at a good head. -/
theorem skipJWs_cons_of_goodHead (c : Char) (t : List Char)
    (h : goodHead c = true) : skipJWs (c :: t) = c :: t := by
  simp only [goodHead, Bool.not_eq_true', Bool.or_eq_false_iff,
    decide_eq_false_iff_not] at h
  obtain ⟨⟨⟨⟨⟨n32, n9⟩, n10⟩, n13⟩, n93⟩, n125⟩ := h
  have h1 : ¬ c = ' ' := fun he => n32 (by rw [he]; decide)
  have h2 : ¬ c = '\t' := fun he => n9 (by rw [he]; decide)
  have h3 : ¬ c = '\n' := fun he => n10 (by rw [he]; decide)
  have h4 : ¬ c = '\r' := fun he => n13 (by rw [he]; decide)
  simp [skipJWs, List.dropWhile_cons, h1, h2, h3, h4]

/-- Whitespace skipping drops a newline. -/
theorem skipJWs_newline (t : List Char) : skipJWs ('\n' :: t) = skipJWs t := by
  simp [skipJWs, List.dropWhile_cons]

/-- Whitespace skipping drops a space. -/
theorem skipJWs_space (t : List Char) : skipJWs (' ' :: t) = skipJWs t := by
  simp [skipJWs, List.dropWhile_cons]

/-- Whitespace skipping drops a run of spaces. -/
theorem skipJWs_replicate : ∀ (n : Nat) (t : List Char),
    skipJWs (List.replicate n ' ' ++ t) = skipJWs t
  | 0, t => rfl
  | n + 1, t => by
    simp only [List.replicate_succ, List.cons_append]
    rw [skipJWs_space, skipJWs_replicate n t]

/-- Whitespace skipping drops printed indentation. -/
theorem skipJWs_indent (k : Nat) (t : List Char) :
    skipJWs (indentN k ++ t) = skipJWs t :=
  skipJWs_replicate (2 * k) t

/-- `parseVal` only sees its input through `skipJWs`. -/
theorem parseVal_congr (fuel depth : Nat) (l l' : List Char)
    (h : skipJWs l = skipJWs l') :
    parseVal fuel depth l = parseVal fuel depth l' := by
  cases fuel with
  | zero => rfl
  | succ f =>
    simp only [parseVal]
    rw [h]

/-- The string scanner's catch-all arm, for a head that is neither a quote
nor a backslash. -/
theorem parseStrAux_ord (f : Nat) (c : Char) (tail : List Char)
    (h1 : ¬ c = '"') (h2 : ¬ c = '\\') :
    parseStrAux (f + 1) (c :: tail)
      = (if c.toNat < 32 then PRes.failed
         else (parseStrAux f tail).map (fun pr => (c :: pr.1, pr.2))) := by
  rw [parseStrAux]
  · exact fun h => h1 h
  · exact fun e r hc _ => h2 hc

/-- The string scanner's `\uXXXX` arm, outside the surrogate ranges. -/
theorem parseStrAux_u (f : Nat) (c1 c2 c3 c4 : Char) (a b c d : Nat)
    (T : List Char)
    (e1 : hexVal c1 = some a) (e2 : hexVal c2 = some b)
    (e3 : hexVal c3 = some c) (e4 : hexVal c4 = some d)
    (hlo : ¬(55296 ≤ 4096 * a + 256 * b + 16 * c + d ∧
             4096 * a + 256 * b + 16 * c + d ≤ 56319))
    (hhi : ¬(56320 ≤ 4096 * a + 256 * b + 16 * c + d ∧
             4096 * a + 256 * b + 16 * c + d ≤ 57343)) :
    parseStrAux (f + 1) ('\\' :: 'u' :: c1 :: c2 :: c3 :: c4 :: T)
      = (parseStrAux f T).map
          (fun pr => (Char.ofNat (4096 * a + 256 * b + 16 * c + d) :: pr.1, pr.2)) := by
  rw [parseStrAux]
  rw [if_neg (by decide), if_neg (by decide), if_neg (by decide),
      if_neg (by decide), if_neg (by decide), if_neg (by decide), if_pos rfl]
  simp only [e1, e2, e3, e4]
  rw [if_neg hlo, if_neg hhi]

/-- The string scanner's surrogate-pair arm. -/
theorem parseStrAux_u_pair (f : Nat) (c1 c2 c3 c4 d1 d2 d3 d4 : Char)
    (a b c d a2 b2 c2' d2' : Nat) (T : List Char)
    (e1 : hexVal c1 = some a) (e2 : hexVal c2 = some b)
    (e3 : hexVal c3 = some c) (e4 : hexVal c4 = some d)
    (e5 : hexVal d1 = some a2) (e6 : hexVal d2 = some b2)
    (e7 : hexVal d3 = some c2') (e8 : hexVal d4 = some d2')
    (hn : 55296 ≤ 4096 * a + 256 * b + 16 * c + d ∧
          4096 * a + 256 * b + 16 * c + d ≤ 56319)
    (hm : 56320 ≤ 4096 * a2 + 256 * b2 + 16 * c2' + d2' ∧
          4096 * a2 + 256 * b2 + 16 * c2' + d2' ≤ 57343) :
    parseStrAux (f + 1)
        ('\\' :: 'u' :: c1 :: c2 :: c3 :: c4 :: '\\' :: 'u' :: d1 :: d2 :: d3 :: d4 :: T)
      = (parseStrAux f T).map
          (fun pr =>
            (Char.ofNat (65536 + (4096 * a + 256 * b + 16 * c + d - 55296) * 1024 +
               (4096 * a2 + 256 * b2 + 16 * c2' + d2' - 56320)) :: pr.1, pr.2)) := by
  rw [parseStrAux]
  rw [if_neg (by decide), if_neg (by decide), if_neg (by decide),
      if_neg (by decide), if_neg (by decide), if_neg (by decide), if_pos rfl]
  simp only [e1, e2, e3, e4]
  rw [if_pos hn]
  simp only [e5, e6, e7, e8]
  rw [if_pos hm]

/-- The string scanner on an escaped quote. -/
theorem psaQuote (f : Nat) (T : List Char) :
    parseStrAux (f + 1) ('\\' :: '"' :: T)
      = (parseStrAux f T).map (fun pr => ('"' :: pr.1, pr.2)) := rfl

/-- The string scanner on an escaped backslash. -/
theorem psaBackslash (f : Nat) (T : List Char) :
    parseStrAux (f + 1) ('\\' :: '\\' :: T)
      = (parseStrAux f T).map (fun pr => ('\\' :: pr.1, pr.2)) := rfl

/-- The string scanner on `\n`. -/
theorem psaN (f : Nat) (T : List Char) :
    parseStrAux (f + 1) ('\\' :: 'n' :: T)
      = (parseStrAux f T).map (fun pr => ('\n' :: pr.1, pr.2)) := rfl

/-- The string scanner on `\r`. -/
theorem psaR (f : Nat) (T : List Char) :
    parseStrAux (f + 1) ('\\' :: 'r' :: T)
      = (parseStrAux f T).map (fun pr => ('\r' :: pr.1, pr.2)) := rfl

/-- The string scanner on `\t`. -/
theorem psaT (f : Nat) (T : List Char) :
    parseStrAux (f + 1) ('\\' :: 't' :: T)
      = (parseStrAux f T).map (fun pr => ('\t' :: pr.1, pr.2)) := rfl

/-- The string scanner on `\b`. -/
theorem psaB8 (f : Nat) (T : List Char) :
    parseStrAux (f + 1) ('\\' :: 'b' :: T)
      = (parseStrAux f T).map (fun pr => (Char.ofNat 8 :: pr.1, pr.2)) := rfl

/-- The string scanner on `\f`. -/
theorem psaF12 (f : Nat) (T : List Char) :
    parseStrAux (f + 1) ('\\' :: 'f' :: T)
      = (parseStrAux f T).map (fun pr => (Char.ofNat 12 :: pr.1, pr.2)) := rfl

/-- Round trip for string bodies: scanning the escaped body recovers the
original characters and the continuation after the closing quote. -/
theorem parseStr_rt : ∀ (s : List Char) (f : Nat) (R : List Char),
    s.length ≤ f →
    parseStrAux (f + 1) (escAll s ++ '"' :: R) = PRes.done (s, R)
  | [], _, R, _ => rfl
  | c :: s, f, R, h => by
    have h' : s.length + 1 ≤ f := by simpa using h
    obtain ⟨f', rfl⟩ : ∃ f', f = f' + 1 := ⟨f - 1, by omega⟩
    have IH : parseStrAux (f' + 1) (escAll s ++ '"' :: R) = PRes.done (s, R) :=
      parseStr_rt s f' R (by omega)
    rw [escAll_cons, List.append_assoc]
    have hv := char_valid_ranges c
    by_cases hq : c = '"'
    · subst hq
      rw [show escapeChar '"' = ['\\', '"'] from rfl]
      simp only [List.cons_append, List.nil_append]
      rw [psaQuote, IH]
      rfl
    · by_cases hb : c = '\\'
      · subst hb
        rw [show escapeChar '\\' = ['\\', '\\'] from rfl]
        simp only [List.cons_append, List.nil_append]
        rw [psaBackslash, IH]
        rfl
      · by_cases hn' : c = '\n'
        · subst hn'
          rw [show escapeChar '\n' = ['\\', 'n'] from rfl]
          simp only [List.cons_append, List.nil_append]
          rw [psaN, IH]
          rfl
        · by_cases hr : c = '\r'
          · subst hr
            rw [show escapeChar '\r' = ['\\', 'r'] from rfl]
            simp only [List.cons_append, List.nil_append]
            rw [psaR, IH]
            rfl
          · by_cases ht : c = '\t'
            · subst ht
              rw [show escapeChar '\t' = ['\\', 't'] from rfl]
              simp only [List.cons_append, List.nil_append]
              rw [psaT, IH]
              rfl
            · by_cases h8 : c.toNat = 8
              · rw [show escapeChar c = ['\\', 'b'] from by
                  rw [escapeChar, if_neg hq, if_neg hb, if_neg hn', if_neg hr,
                      if_neg ht, if_pos h8]]
                simp only [List.cons_append, List.nil_append]
                rw [psaB8, IH]
                have hc : Char.ofNat 8 = c := by rw [← h8, Char.ofNat_toNat]
                rw [hc]
                rfl
              · by_cases h12 : c.toNat = 12
                · rw [show escapeChar c = ['\\', 'f'] from by
                    rw [escapeChar, if_neg hq, if_neg hb, if_neg hn', if_neg hr,
                        if_neg ht, if_neg h8, if_pos h12]]
                  simp only [List.cons_append, List.nil_append]
                  rw [psaF12, IH]
                  have hc : Char.ofNat 12 = c := by rw [← h12, Char.ofNat_toNat]
                  rw [hc]
                  rfl
                · by_cases hpr : 32 ≤ c.toNat ∧ c.toNat ≤ 126
                  · rw [show escapeChar c = [c] from by
                      rw [escapeChar, if_neg hq, if_neg hb, if_neg hn', if_neg hr,
                          if_neg ht, if_neg h8, if_neg h12, if_pos hpr]]
                    simp only [List.cons_append, List.nil_append]
                    rw [parseStrAux_ord (f' + 1) c _ hq hb,
                        if_neg (show ¬ c.toNat < 32 by omega), IH]
                    rfl
                  · by_cases hbmp : c.toNat < 65536
                    · rw [show escapeChar c = '\\' :: 'u' :: hex4 c.toNat from by
                        rw [escapeChar, if_neg hq, if_neg hb, if_neg hn', if_neg hr,
                            if_neg ht, if_neg h8, if_neg h12, if_neg hpr,
                            if_pos hbmp]]
                      rw [hex4]
                      simp only [List.cons_append, List.nil_append]
                      rw [parseStrAux_u (f' + 1)
                            (hexDigitChar (c.toNat / 4096 % 16))
                            (hexDigitChar (c.toNat / 256 % 16))
                            (hexDigitChar (c.toNat / 16 % 16))
                            (hexDigitChar (c.toNat % 16))
                            (c.toNat / 4096 % 16) (c.toNat / 256 % 16)
                            (c.toNat / 16 % 16) (c.toNat % 16) _
                            (hexVal_hexDigitChar _ (by omega))
                            (hexVal_hexDigitChar _ (by omega))
                            (hexVal_hexDigitChar _ (by omega))
                            (hexVal_hexDigitChar _ (by omega))
                            (by omega) (by omega), IH]
                      have hc : Char.ofNat (4096 * (c.toNat / 4096 % 16) +
                          256 * (c.toNat / 256 % 16) + 16 * (c.toNat / 16 % 16) +
                          c.toNat % 16) = c := by
                        rw [show 4096 * (c.toNat / 4096 % 16) +
                            256 * (c.toNat / 256 % 16) + 16 * (c.toNat / 16 % 16) +
                            c.toNat % 16 = c.toNat from by omega, Char.ofNat_toNat]
                      rw [hc]
                      rfl
                    · have ha : 65536 ≤ c.toNat ∧ c.toNat < 1114112 := by omega
                      rw [show escapeChar c =
                          '\\' :: 'u' :: hex4 (55296 + (c.toNat - 65536) / 1024) ++
                          '\\' :: 'u' :: hex4 (56320 + (c.toNat - 65536) % 1024) from by
                        rw [escapeChar, if_neg hq, if_neg hb, if_neg hn', if_neg hr,
                            if_neg ht, if_neg h8, if_neg h12, if_neg hpr,
                            if_neg hbmp]]
                      rw [hex4, hex4]
                      simp only [List.cons_append, List.nil_append, List.append_assoc]
                      rw [parseStrAux_u_pair (f' + 1) _ _ _ _ _ _ _ _
                            ((55296 + (c.toNat - 65536) / 1024) / 4096 % 16)
                            ((55296 + (c.toNat - 65536) / 1024) / 256 % 16)
                            ((55296 + (c.toNat - 65536) / 1024) / 16 % 16)
                            ((55296 + (c.toNat - 65536) / 1024) % 16)
                            ((56320 + (c.toNat - 65536) % 1024) / 4096 % 16)
                            ((56320 + (c.toNat - 65536) % 1024) / 256 % 16)
                            ((56320 + (c.toNat - 65536) % 1024) / 16 % 16)
                            ((56320 + (c.toNat - 65536) % 1024) % 16) _
                            (hexVal_hexDigitChar _ (by omega))
                            (hexVal_hexDigitChar _ (by omega))
                            (hexVal_hexDigitChar _ (by omega))
                            (hexVal_hexDigitChar _ (by omega))
                            (hexVal_hexDigitChar _ (by omega))
                            (hexVal_hexDigitChar _ (by omega))
                            (hexVal_hexDigitChar _ (by omega))
                            (hexVal_hexDigitChar _ (by omega))
                            (by constructor <;> omega) (by constructor <;> omega),
                          IH]
                      have hc : Char.ofNat (65536 +
                          (4096 * ((55296 + (c.toNat - 65536) / 1024) / 4096 % 16) +
                           256 * ((55296 + (c.toNat - 65536) / 1024) / 256 % 16) +
                           16 * ((55296 + (c.toNat - 65536) / 1024) / 16 % 16) +
                           (55296 + (c.toNat - 65536) / 1024) % 16 - 55296) * 1024 +
                          (4096 * ((56320 + (c.toNat - 65536) % 1024) / 4096 % 16) +
                           256 * ((56320 + (c.toNat - 65536) % 1024) / 256 % 16) +
                           16 * ((56320 + (c.toNat - 65536) % 1024) / 16 % 16) +
                           (56320 + (c.toNat - 65536) % 1024) % 16 - 56320)) = c := by
                        rw [show 65536 +
                            (4096 * ((55296 + (c.toNat - 65536) / 1024) / 4096 % 16) +
                             256 * ((55296 + (c.toNat - 65536) / 1024) / 256 % 16) +
                             16 * ((55296 + (c.toNat - 65536) / 1024) / 16 % 16) +
                             (55296 + (c.toNat - 65536) / 1024) % 16 - 55296) * 1024 +
                            (4096 * ((56320 + (c.toNat - 65536) % 1024) / 4096 % 16) +
                             256 * ((56320 + (c.toNat - 65536) % 1024) / 256 % 16) +
                             16 * ((56320 + (c.toNat - 65536) % 1024) / 16 % 16) +
                             (56320 + (c.toNat - 65536) % 1024) % 16 - 56320)
                            = c.toNat from by omega, Char.ofNat_toNat]
                      rw [hc]
                      rfl

/-- Round trip for whole string literals via `parseStr`. -/
theorem parseStr_quote (s R : List Char) :
    parseStr (escAll s ++ '"' :: R) = PRes.done (s, R) := by
  rw [parseStr]
  have hl : (escAll s ++ '"' :: R).length + 1
      = ((escAll s).length + R.length + 1) + 1 := by
    simp only [List.length_append, List.length_cons]
    omega
  rw [hl]
  exact parseStr_rt s ((escAll s).length + R.length + 1) R
    (by have := escAll_length s; omega)

/-- `natDigitsAux` at zero is empty. -/
theorem natDigitsAux_zero : ∀ fuel, natDigitsAux fuel 0 = [] := by
  intro fuel
  cases fuel <;> simp [natDigitsAux]

/-- With any fuel and a nonzero argument the digit list is nonempty. -/
theorem natDigitsAux_ne_nil (fuel n : Nat) (hn : n ≠ 0) (hf : fuel ≠ 0) :
    natDigitsAux fuel n ≠ [] := by
  obtain ⟨f, rfl⟩ : ∃ f, fuel = f + 1 := ⟨fuel - 1, by omega⟩
  rw [natDigitsAux, if_neg hn]
  simp

/-- Every emitted character is a decimal digit. -/
theorem natDigitsAux_digits : ∀ (fuel n : Nat), ∀ c ∈ natDigitsAux fuel n,
    isDigitChar c = true
  | 0, n => by intro c hc; simp [natDigitsAux] at hc
  | fuel + 1, n => by
    intro c hc
    rw [natDigitsAux] at hc
    by_cases h0 : n = 0
    · rw [if_pos h0] at hc; simp at hc
    · rw [if_neg h0] at hc
      rcases List.mem_append.mp hc with h | h
      · exact natDigitsAux_digits fuel (n / 10) c h
      · have hc' : c = Char.ofNat (48 + n % 10) := by simpa using h
        subst hc'
        simp only [isDigitChar, decide_eq_true_eq]
        rw [char_toNat_ofNat _ (Or.inl (by omega))]
        omega

/-- With sufficient fuel the leading digit is nonzero. -/
theorem natDigitsAux_head : ∀ (fuel n : Nat) (h : Char) (t : List Char),
    n < 10 ^ fuel → natDigitsAux fuel n = h :: t → 49 ≤ h.toNat ∧ h.toNat ≤ 57
  | 0, n, h, t => by intro _ he; simp [natDigitsAux] at he
  | fuel + 1, n, h, t => by
    intro hb he
    rw [natDigitsAux] at he
    by_cases h0 : n = 0
    · rw [if_pos h0] at he; exact absurd he (by simp)
    · rw [if_neg h0] at he
      by_cases h10 : n / 10 = 0
      · rw [h10, natDigitsAux_zero, List.nil_append] at he
        have hh : h = Char.ofNat (48 + n % 10) := (List.cons_eq_cons.mp he).1.symm
        subst hh
        rw [char_toNat_ofNat _ (Or.inl (by omega))]
        omega
      · cases hd : natDigitsAux fuel (n / 10) with
        | nil => exact absurd hd (natDigitsAux_ne_nil fuel (n / 10) h10
            (by intro hf; subst hf; simp [pow_zero] at hb; omega))
        | cons h' t' =>
          rw [hd, List.cons_append] at he
          have hh : h = h' := (List.cons_eq_cons.mp he).1.symm
          rw [hh]
          refine natDigitsAux_head fuel (n / 10) h' t' ?_ hd
          have hp : 10 ^ (fuel + 1) = 10 ^ fuel * 10 := pow_succ 10 fuel
          omega

/-- `n` fits in `n + 1` decimal digits. -/
theorem n_lt_pow (n : Nat) : n < 10 ^ (n + 1) := by
  have h1 : n < 2 ^ n := Nat.lt_two_pow n
  have h2 : 2 ^ n ≤ 10 ^ n := Nat.pow_le_pow_left (by omega) n
  have h3 : 10 ^ n ≤ 10 ^ (n + 1) := Nat.pow_le_pow_right (by omega) (Nat.le_succ n)
  omega

/-- Folding the digit characters recovers the number. -/
theorem digitsFoldVal : ∀ (fuel n a : Nat), n < 10 ^ fuel →
    (natDigitsAux fuel n).foldl (fun acc d => 10 * acc + (d.toNat - 48)) a
      = a * 10 ^ (natDigitsAux fuel n).length + n
  | 0, n, a => by
    intro hb
    have h0 : n = 0 := by simpa using hb
    subst h0
    simp [natDigitsAux]
  | fuel + 1, n, a => by
    intro hb
    by_cases h0 : n = 0
    · subst h0; simp [natDigitsAux]
    · rw [natDigitsAux, if_neg h0]
      have hdiv : n / 10 < 10 ^ fuel := by
        have hp : 10 ^ (fuel + 1) = 10 ^ fuel * 10 := pow_succ 10 fuel
        omega
      rw [List.foldl_append]
      rw [digitsFoldVal fuel (n / 10) a hdiv]
      simp only [List.foldl_cons, List.foldl_nil, List.length_append,
        List.length_cons, List.length_nil]
      rw [char_toNat_ofNat (48 + n % 10) (Or.inl (by omega))]
      have h1 : 10 * (a * 10 ^ (natDigitsAux fuel (n / 10)).length)
          = a * 10 ^ ((natDigitsAux fuel (n / 10)).length + (0 + 1)) := by
        rw [pow_succ]
        ring
      calc 10 * (a * 10 ^ (natDigitsAux fuel (n / 10)).length + n / 10) +
            (48 + n % 10 - 48)
          = 10 * (a * 10 ^ (natDigitsAux fuel (n / 10)).length) +
            (10 * (n / 10) + n % 10) := by omega
        _ = a * 10 ^ ((natDigitsAux fuel (n / 10)).length + (0 + 1)) + n := by
            rw [h1]; omega

/-- `takeWhile`/`dropWhile` split an append whose left part satisfies the
predicate and whose right part starts by falsifying it. -/
theorem takeWhile_app (p : Char → Bool) : ∀ (l r : List Char),
    (∀ c ∈ l, p c = true) → (∀ c t, r = c :: t → p c = false) →
    (l ++ r).takeWhile p = l ∧ (l ++ r).dropWhile p = r
  | [], r, _, hr => by
    cases r with
    | nil => exact ⟨rfl, rfl⟩
    | cons c t =>
      have hc := hr c t rfl
      constructor
      · simp [List.takeWhile_cons, hc]
      · simp [List.dropWhile_cons, hc]
  | c :: l, r, hl, hr => by
    have hc := hl c (List.mem_cons_self c l)
    have ih := takeWhile_app p l r (fun d hd => hl d (List.mem_cons_of_mem c hd)) hr
    constructor
    · simp [List.takeWhile_cons, hc, ih.1]
    · simp [List.dropWhile_cons, hc, ih.2]

/-- What a stopping head rules out. -/
theorem stopTok_head (c : Char) (t : List Char) (h : stopTok (c :: t) = true) :
    isDigitChar c = false ∧ ¬ c = '.' ∧ ¬ c = 'e' ∧ ¬ c = 'E' := by
  simp only [stopTok, Bool.not_eq_true', Bool.or_eq_false_iff,
    decide_eq_false_iff_not] at h
  exact ⟨h.1.1.1, h.1.1.2, h.1.2, h.2⟩

/-- The shape of a printed natural number: nonempty, digit-headed, with a
nonzero leading digit when the number is nonzero. -/
theorem natToChars_shape (n : Nat) : ∃ h t, natToChars n = h :: t ∧
    48 ≤ h.toNat ∧ h.toNat ≤ 57 ∧ (n ≠ 0 → 49 ≤ h.toNat) := by
  by_cases h0 : n = 0
  · subst h0
    exact ⟨'0', [], rfl, by decide, by decide, fun hn => absurd rfl hn⟩
  · rw [natToChars, if_neg h0]
    cases hd : natDigitsAux (n + 1) n with
    | nil => exact absurd hd (natDigitsAux_ne_nil (n + 1) n h0 (by omega))
    | cons d1 ds =>
      have hh := natDigitsAux_head (n + 1) n d1 ds (n_lt_pow n) hd
      exact ⟨d1, ds, rfl, by omega, hh.2, fun _ => hh.1⟩

/-- The integer-part scanner inverts `natToChars`. -/
theorem parseNatNum_rt (n : Nat) (R : List Char) (hR : stopTok R = true) :
    parseNatNum (natToChars n ++ R) = some (n, R) := by
  by_cases h0 : n = 0
  · subst h0; rfl
  · rw [natToChars, if_neg h0]
    cases hd : natDigitsAux (n + 1) n with
    | nil => exact absurd hd (natDigitsAux_ne_nil (n + 1) n h0 (by omega))
    | cons d1 ds =>
      have hh := natDigitsAux_head (n + 1) n d1 ds (n_lt_pow n) hd
      have hds : ∀ c ∈ ds, isDigitChar c = true := fun c hc =>
        natDigitsAux_digits (n + 1) n c (by rw [hd]; exact List.mem_cons_of_mem _ hc)
      have hRd : ∀ c t, R = c :: t → isDigitChar c = false := by
        intro c t he
        subst he
        exact (stopTok_head c t hR).1
      simp only [List.cons_append]
      rw [parseNatNum]
      rw [if_neg (show ¬ d1 = '0' from fun he => by
        subst he; exact absurd hh (by decide))]
      rw [if_pos (show isDigitChar d1 = true from by
        simp only [isDigitChar, decide_eq_true_eq]; omega)]
      have htw := takeWhile_app isDigitChar ds R hds hRd
      rw [htw.1, htw.2]
      have hval := digitsFoldVal (n + 1) n 0 (n_lt_pow n)
      rw [hd] at hval
      simp only [List.foldl_cons, Nat.mul_zero, Nat.zero_add, Nat.zero_mul] at hval
      rw [hval]

/-- No fraction group starts after a stopping head. -/
theorem parseFrac_none (R : List Char) (h : stopTok R = true) :
    parseFrac R = none := by
  cases R with
  | nil => rfl
  | cons c t =>
    have hc := (stopTok_head c t h).2.1
    rw [parseFrac]
    exact fun d ds h1 => hc (List.head_eq_of_cons_eq h1)

/-- No exponent group starts after a stopping head. -/
theorem parseExp_none (R : List Char) (h : stopTok R = true) :
    parseExp R = none := by
  match R with
  | [] => rfl
  | [c] => rfl
  | [c, d] =>
    have hc := stopTok_head c [d] h
    show (if (c = 'e' ∨ c = 'E') ∧ isDigitChar d = true then some [] else none)
        = none
    exact if_neg (fun hcon => hcon.1.elim hc.2.2.1 hc.2.2.2)
  | c :: s :: d :: ds =>
    have hc := stopTok_head c (s :: d :: ds) h
    rw [parseExp]
    exact if_neg (fun hcon => hcon.elim hc.2.2.1 hc.2.2.2)

/-- The number scanner on a non-sign head whose integer part scans cleanly. -/
theorem parseNum_int (c : Char) (t : List Char) (hc : ¬ c = '-')
    (R : List Char) (hR : stopTok R = true) (n : Nat)
    (hp : parseNatNum (c :: t) = some (n, R)) :
    parseNum (c :: t) = NumRes.int (n : Int) R := by
  rw [parseNum]
  · split
    · rename_i heq
      rw [hp] at heq
      simp at heq
    · rename_i i rest heq
      rw [hp] at heq
      simp only [Option.map_some'] at heq
      obtain ⟨hi, hrest⟩ := Prod.mk.injEq .. ▸ Option.some.injEq .. ▸ heq
      subst hi
      subst hrest
      rw [parseFrac_none R hR, parseExp_none R hR]
  · exact fun rest heq => hc (List.head_eq_of_cons_eq heq)

/-- The number scanner inverts integer printing. -/
theorem parseNum_rt (i : Int) (R : List Char) (hR : stopTok R = true) :
    parseNum (intToChars i ++ R) = NumRes.int i R := by
  by_cases hneg : i < 0
  · rw [intToChars, if_pos hneg]
    simp only [List.cons_append]
    rw [parseNum]
    rw [parseNatNum_rt i.natAbs R hR]
    simp only [Option.map_some']
    rw [parseFrac_none R hR, parseExp_none R hR]
    have hval : -((i.natAbs : Nat) : Int) = i := by omega
    rw [hval]
  · rw [intToChars, if_neg hneg]
    obtain ⟨h1, t1, hsh, hlo, hhi, _⟩ := natToChars_shape i.natAbs
    have hd : ¬ h1 = '-' := fun he => by
      subst he
      exact absurd hlo (by decide)
    have hp : parseNatNum (h1 :: (t1 ++ R)) = some (i.natAbs, R) := by
      have h2 := parseNatNum_rt i.natAbs R hR
      rw [hsh] at h2
      simpa [List.cons_append] using h2
    rw [hsh]
    simp only [List.cons_append]
    rw [parseNum_int h1 (t1 ++ R) hd R hR i.natAbs hp]
    have hval : ((i.natAbs : Nat) : Int) = i := by omega
    rw [hval]

/-- Digit heads are good heads. -/
theorem goodHead_of_digitRange (c : Char) (h : 48 ≤ c.toNat ∧ c.toNat ≤ 57) :
    goodHead c = true := by
  simp only [goodHead, Bool.not_eq_true', Bool.or_eq_false_iff,
    decide_eq_false_iff_not]
  refine ⟨⟨⟨⟨⟨?_, ?_⟩, ?_⟩, ?_⟩, ?_⟩, ?_⟩ <;> omega

/-- Every printed value is nonempty and starts with a good head. -/
theorem dumpsVal_head (lvl : Nat) (j : Json) :
    ∃ h t, dumpsVal lvl j = h :: t ∧ goodHead h = true := by
  match j with
  | Json.null => exact ⟨'n', _, rfl, by decide⟩
  | Json.bool true => exact ⟨'t', _, rfl, by decide⟩
  | Json.bool false => exact ⟨'f', _, rfl, by decide⟩
  | Json.num i =>
    by_cases hneg : i < 0
    · exact ⟨'-', natToChars i.natAbs,
        by rw [dumpsVal, intToChars, if_pos hneg], by decide⟩
    · obtain ⟨h, t, hsh, hlo, hhi, _⟩ := natToChars_shape i.natAbs
      exact ⟨h, t, by rw [dumpsVal, intToChars, if_neg hneg, hsh],
        goodHead_of_digitRange h ⟨hlo, hhi⟩⟩
  | Json.str s =>
    exact ⟨'"', s.foldr (fun c acc => escapeChar c ++ acc) ['"'], rfl, by decide⟩
  | Json.arr JList.nil => exact ⟨'[', _, rfl, by decide⟩
  | Json.arr (JList.lcons j' r) => exact ⟨'[', _, rfl, by decide⟩
  | Json.obj JObj.nil => exact ⟨Char.ofNat 123, [Char.ofNat 125], rfl, by decide⟩
  | Json.obj (JObj.ocons k v o) => exact ⟨Char.ofNat 123, _, rfl, by decide⟩

mutual
/-- The printed form of a value is at least as long as its call count. -/
theorem callsJson_le : ∀ (j : Json) (lvl : Nat), callsJson j ≤ (dumpsVal lvl j).length
  | Json.null, lvl => by rw [dumpsVal]; decide
  | Json.bool b, lvl => by cases b <;> (rw [dumpsVal]; decide)
  | Json.num i, lvl => by
    rw [dumpsVal]
    by_cases hneg : i < 0
    · rw [intToChars, if_pos hneg]
      simp [callsJson]
    · rw [intToChars, if_neg hneg]
      obtain ⟨h, t, hsh, _, _, _⟩ := natToChars_shape i.natAbs
      rw [hsh]
      simp [callsJson]
  | Json.str s, lvl => by
    rw [dumpsVal, quoteStr]
    simp [callsJson]
  | Json.arr JList.nil, lvl => by rw [dumpsVal]; decide
  | Json.arr (JList.lcons j r), lvl => by
    rw [dumpsVal]
    have h := callsList_le (JList.lcons j r) (lvl + 1) (by omega)
    simp only [callsJson, List.length_cons, List.length_append, indentN,
      List.length_replicate]
    omega
  | Json.obj JObj.nil, lvl => by rw [dumpsVal]; decide
  | Json.obj (JObj.ocons k v o), lvl => by
    rw [dumpsVal]
    have h := callsObj_le (JObj.ocons k v o) (lvl + 1) (by omega)
    simp only [callsJson, List.length_cons, List.length_append, indentN,
      List.length_replicate]
    omega

/-- The printed items are at least as long as their call count. -/
theorem callsList_le : ∀ (L : JList) (lvl : Nat), 1 ≤ lvl →
    callsList L ≤ (dumpsItems lvl L).length
  | JList.nil, lvl, _ => by rw [dumpsItems]; simp [callsList]
  | JList.lcons j JList.nil, lvl, h => by
    rw [dumpsItems]
    have hj := callsJson_le j lvl
    simp only [callsList, List.length_append, indentN, List.length_replicate]
    omega
  | JList.lcons j (JList.lcons j2 r), lvl, h => by
    rw [dumpsItems]
    have hj := callsJson_le j lvl
    have hr := callsList_le (JList.lcons j2 r) lvl h
    simp only [callsList] at hr ⊢
    simp only [List.length_append, List.length_cons, indentN, List.length_replicate]
    omega
    exact fun hh => JList.noConfusion hh

/-- The printed members are at least as long as their call count. -/
theorem callsObj_le : ∀ (O : JObj) (lvl : Nat), 1 ≤ lvl →
    callsObj O ≤ (dumpsMembers lvl O).length
  | JObj.nil, lvl, _ => by rw [dumpsMembers]; simp [callsObj]
  | JObj.ocons k v JObj.nil, lvl, h => by
    rw [dumpsMembers]
    have hv := callsJson_le v lvl
    simp only [callsObj, callsJson, List.length_append, List.length_cons, indentN,
      List.length_replicate, quoteStr, List.length_cons]
    omega
  | JObj.ocons k v (JObj.ocons k2 v2 o), lvl, h => by
    rw [dumpsMembers]
    have hv := callsJson_le v lvl
    have ho := callsObj_le (JObj.ocons k2 v2 o) lvl h
    simp only [callsObj] at ho ⊢
    simp only [List.length_append, List.length_cons, indentN, List.length_replicate,
      quoteStr]
    omega
    exact fun hh => JObj.noConfusion hh
end

/-- `parseVal` on a string literal. -/
theorem pvStr (f depth : Nat) (X : List Char) :
    parseVal (f + 1) depth ('"' :: X)
      = (parseStr X).map (fun pr => (Json.str pr.1, pr.2)) := rfl

/-- `parseVal` on `null`. -/
theorem pvNull (f depth : Nat) (R : List Char) :
    parseVal (f + 1) depth ('n' :: 'u' :: 'l' :: 'l' :: R)
      = PRes.done (Json.null, R) := rfl

/-- `parseVal` on `true`. -/
theorem pvTrue (f depth : Nat) (R : List Char) :
    parseVal (f + 1) depth ('t' :: 'r' :: 'u' :: 'e' :: R)
      = PRes.done (Json.bool true, R) := rfl

/-- `parseVal` on `false`. -/
theorem pvFalse (f depth : Nat) (R : List Char) :
    parseVal (f + 1) depth ('f' :: 'a' :: 'l' :: 's' :: 'e' :: R)
      = PRes.done (Json.bool false, R) := rfl

/-- `parseVal` on an empty array literal. -/
theorem pvArrNil (f d' : Nat) (R : List Char) :
    parseVal (f + 1) (d' + 1) ('[' :: ']' :: R)
      = PRes.done (Json.arr JList.nil, R) := rfl

/-- `parseVal` on an empty object literal. -/
theorem pvObjNil (f d' : Nat) (R : List Char) :
    parseVal (f + 1) (d' + 1) (Char.ofNat 123 :: Char.ofNat 125 :: R)
      = PRes.done (Json.obj JObj.nil, R) := rfl

/-- `parseVal` on a digit head hands over to the number scanner. -/
theorem pvNumPos (f depth : Nat) (c : Char) (X : List Char)
    (h48 : 48 ≤ c.toNat) (h57 : c.toNat ≤ 57) :
    parseVal (f + 1) depth (c :: X)
      = (match parseNum (c :: X) with
         | NumRes.int i r => PRes.done (Json.num i, r)
         | NumRes.flt _ => PRes.outside
         | NumRes.bad => PRes.failed) := by
  rw [parseVal]
  rw [skipJWs_cons_of_goodHead c X (goodHead_of_digitRange c ⟨h48, h57⟩)]
  split
  · rename_i heq
    exact absurd heq (by simp)
  · rename_i c' rest' heq
    obtain ⟨hc, hX⟩ := List.cons_eq_cons.mp heq
    subst hc
    subst hX
    rw [if_neg (show ¬ c = Char.ofNat 123 from fun he => by
          rw [he] at h57; exact absurd h57 (by decide)),
        if_neg (show ¬ c = '[' from fun he => by
          rw [he] at h57; exact absurd h57 (by decide)),
        if_neg (show ¬ c = '"' from fun he => by
          rw [he] at h48; exact absurd h48 (by decide)),
        if_neg (show ¬ c = 't' from fun he => by
          rw [he] at h57; exact absurd h57 (by decide)),
        if_neg (show ¬ c = 'f' from fun he => by
          rw [he] at h57; exact absurd h57 (by decide)),
        if_neg (show ¬ c = 'n' from fun he => by
          rw [he] at h57; exact absurd h57 (by decide)),
        if_neg (show ¬ c = 'N' from fun he => by
          rw [he] at h57; exact absurd h57 (by decide)),
        if_neg (show ¬ c = 'I' from fun he => by
          rw [he] at h57; exact absurd h57 (by decide)),
        if_neg (show ¬ c = '-' from fun he => by
          rw [he] at h48; exact absurd h48 (by decide))]

/-- `parseVal` on a minus sign followed by a digit. -/
theorem pvNegDigit (f depth : Nat) (c : Char) (X : List Char)
    (h48 : 48 ≤ c.toNat) (h57 : c.toNat ≤ 57) :
    parseVal (f + 1) depth ('-' :: c :: X)
      = (match parseNum ('-' :: c :: X) with
         | NumRes.int i r => PRes.done (Json.num i, r)
         | NumRes.flt _ => PRes.outside
         | NumRes.bad => PRes.failed) := by
  rw [parseVal]
  rw [skipJWs_cons_of_goodHead '-' (c :: X) (by decide)]
  split
  · rename_i heq
    exact absurd heq (by simp)
  · rename_i c' rest' heq
    obtain ⟨hc, hX⟩ := List.cons_eq_cons.mp heq
    subst hc
    subst hX
    rw [if_neg (by decide), if_neg (by decide), if_neg (by decide),
        if_neg (by decide), if_neg (by decide), if_neg (by decide),
        if_neg (by decide), if_neg (by decide), if_pos rfl]
    split
    · rename_i heq2
      have hcI : c = 'I' := List.head_eq_of_cons_eq heq2
      rw [hcI] at h57
      exact absurd h57 (by decide)
    · rfl

/-- `parseVal` on `[` with a non-`]`, non-whitespace continuation hands over
to the element parser. -/
theorem pvArrCons (f d' : Nat) (X : List Char) (c : Char) (t : List Char)
    (hsk : skipJWs X = c :: t) (hgh : goodHead c = true) :
    parseVal (f + 1) (d' + 1) ('[' :: X) = parseItems f d' JList.nil X := by
  rw [parseVal]
  rw [skipJWs_cons_of_goodHead '[' X (by decide)]
  split
  · rename_i heq
    exact absurd heq (by simp)
  · rename_i c' rest' heq
    obtain ⟨hc, hX⟩ := List.cons_eq_cons.mp heq
    subst hc
    subst hX
    rw [if_neg (by decide), if_pos rfl, hsk]
    have hne : ¬ c = ']' := by
      simp only [goodHead, Bool.not_eq_true', Bool.or_eq_false_iff,
        decide_eq_false_iff_not] at hgh
      exact fun he => hgh.1.2 (by rw [he]; decide)
    show (if c = ']' then PRes.done (Json.arr JList.nil, t)
          else parseItems f d' JList.nil X) = parseItems f d' JList.nil X
    rw [if_neg hne]

/-- `parseVal` on `{` with a non-`}`, non-whitespace continuation hands over
to the member parser. -/
theorem pvObjCons (f d' : Nat) (X : List Char) (c : Char) (t : List Char)
    (hsk : skipJWs X = c :: t) (hgh : goodHead c = true) :
    parseVal (f + 1) (d' + 1) (Char.ofNat 123 :: X) = parseMembers f d' JObj.nil X := by
  rw [parseVal]
  rw [skipJWs_cons_of_goodHead (Char.ofNat 123) X (by decide)]
  split
  · rename_i heq
    exact absurd heq (by simp)
  · rename_i c' rest' heq
    obtain ⟨hc, hX⟩ := List.cons_eq_cons.mp heq
    subst hc
    subst hX
    rw [if_pos rfl, hsk]
    have hne : ¬ c = Char.ofNat 125 := by
      simp only [goodHead, Bool.not_eq_true', Bool.or_eq_false_iff,
        decide_eq_false_iff_not] at hgh
      exact fun he => hgh.2 (by rw [he]; decide)
    show (if c = Char.ofNat 125 then PRes.done (Json.obj JObj.nil, t)
          else parseMembers f d' JObj.nil X) = parseMembers f d' JObj.nil X
    rw [if_neg hne]

/-- Continuation of the member parser after the value is parsed. -/
def pmCont2 (fuel depth : Nat) (acc : JObj) (kk : List Char) :
    PRes (Json × List Char) → PRes (Json × List Char)
  | PRes.done (v, r4) =>
    match skipJWs r4 with
    | ',' :: r5 => parseMembers fuel depth (objInsert acc kk v) r5
    | d :: r5 =>
      if d = Char.ofNat 125 then PRes.done (Json.obj (objInsert acc kk v), r5)
      else PRes.failed
    | [] => PRes.failed
  | PRes.failed => PRes.failed
  | PRes.outside => PRes.outside

/-- Continuation of the member parser after the key string is scanned. -/
def pmCont (fuel depth : Nat) (acc : JObj) : PRes (List Char × List Char) →
    PRes (Json × List Char)
  | PRes.done (kk, r2) =>
    match skipJWs r2 with
    | ':' :: r3 => pmCont2 fuel depth acc kk (parseVal fuel depth r3)
    | _ => PRes.failed
  | PRes.failed => PRes.failed
  | PRes.outside => PRes.outside

/-- Continuation of the element parser after a value is parsed. -/
def piCont (fuel depth : Nat) (acc : JList) : PRes (Json × List Char) →
    PRes (Json × List Char)
  | PRes.done (v, r) =>
    match skipJWs r with
    | ',' :: r2 => parseItems fuel depth (jlistSnoc acc v) r2
    | d :: r2 =>
      if d = ']' then PRes.done (Json.arr (jlistSnoc acc v), r2) else PRes.failed
    | [] => PRes.failed
  | PRes.failed => PRes.failed
  | PRes.outside => PRes.outside

/-- One step of `parseMembers` through its continuations. -/
theorem pm_unfold (fuel depth : Nat) (acc : JObj) (l : List Char) :
    parseMembers (fuel + 1) depth acc l
      = (match skipJWs l with
         | '"' :: rest => pmCont fuel depth acc (parseStr rest)
         | _ => PRes.failed) := rfl

/-- One step of `parseItems` through its continuation. -/
theorem pi_unfold (fuel depth : Nat) (acc : JList) (l : List Char) :
    parseItems (fuel + 1) depth acc l
      = piCont fuel depth acc (parseVal fuel depth l) := rfl

/-- The items text after the opening bracket starts, modulo whitespace, with
the first element's good head. -/
theorem skipJWs_items_head (lvl : Nat) (j : Json) (r : JList) (T : List Char) :
    ∃ c t, skipJWs ('\n' :: (dumpsItems (lvl + 1) (JList.lcons j r) ++ T)) = c :: t
      ∧ goodHead c = true := by
  obtain ⟨hh, ht, hdv, hgh⟩ := dumpsVal_head (lvl + 1) j
  cases r with
  | nil =>
    rw [skipJWs_newline, dumpsItems, List.append_assoc, skipJWs_indent, hdv]
    simp only [List.cons_append]
    rw [skipJWs_cons_of_goodHead _ _ hgh]
    exact ⟨hh, _, rfl, hgh⟩
  | lcons j2 r2 =>
    rw [skipJWs_newline, dumpsItems]
    · simp only [List.cons_append, List.append_assoc]
      rw [skipJWs_indent, hdv]
      simp only [List.cons_append]
      rw [skipJWs_cons_of_goodHead _ _ hgh]
      exact ⟨hh, _, rfl, hgh⟩
    · exact fun hh2 => JList.noConfusion hh2

/-- The members text after the opening brace starts, modulo whitespace, with
the first key's opening quote. -/
theorem skipJWs_members_head (lvl : Nat) (k : List Char) (v : Json) (o : JObj)
    (T : List Char) :
    ∃ c t, skipJWs ('\n' :: (dumpsMembers (lvl + 1) (JObj.ocons k v o) ++ T)) = c :: t
      ∧ goodHead c = true := by
  cases o with
  | nil =>
    rw [skipJWs_newline, dumpsMembers]
    simp only [List.cons_append, List.append_assoc]
    rw [skipJWs_indent, quoteStr_append, skipJWs_cons_of_goodHead _ _ (by decide)]
    exact ⟨'"', _, rfl, by decide⟩
  | ocons k2 v2 o2 =>
    rw [skipJWs_newline, dumpsMembers]
    · simp only [List.cons_append, List.append_assoc]
      rw [skipJWs_indent, quoteStr_append, skipJWs_cons_of_goodHead _ _ (by decide)]
      exact ⟨'"', _, rfl, by decide⟩
    · exact fun hh2 => JObj.noConfusion hh2

mutual
/-- Round trip: parsing a printed value at any indentation level recovers the
value and the continuation, given enough fuel and depth budget. -/
theorem rt_val : ∀ (j : Json) (fuel depth lvl : Nat) (R : List Char),
    wfJson j = true → callsJson j ≤ fuel → jdepth j ≤ depth → stopTok R = true →
    parseVal fuel depth (dumpsVal lvl j ++ R) = PRes.done (j, R)
  | Json.null, fuel, depth, lvl, R, _, hc, _, _ => by
    obtain ⟨f, rfl⟩ : ∃ f, fuel = f + 1 :=
      ⟨fuel - 1, by simp only [callsJson] at hc; omega⟩
    exact pvNull f depth R
  | Json.bool true, fuel, depth, lvl, R, _, hc, _, _ => by
    obtain ⟨f, rfl⟩ : ∃ f, fuel = f + 1 :=
      ⟨fuel - 1, by simp only [callsJson] at hc; omega⟩
    exact pvTrue f depth R
  | Json.bool false, fuel, depth, lvl, R, _, hc, _, _ => by
    obtain ⟨f, rfl⟩ : ∃ f, fuel = f + 1 :=
      ⟨fuel - 1, by simp only [callsJson] at hc; omega⟩
    exact pvFalse f depth R
  | Json.num i, fuel, depth, lvl, R, _, hc, _, hR => by
    obtain ⟨f, rfl⟩ : ∃ f, fuel = f + 1 :=
      ⟨fuel - 1, by simp only [callsJson] at hc; omega⟩
    by_cases hneg : i < 0
    · obtain ⟨h1, t1, hsh, hlo, hhi, _⟩ := natToChars_shape i.natAbs
      have hstep : dumpsVal lvl (Json.num i) ++ R = '-' :: h1 :: (t1 ++ R) := by
        rw [dumpsVal, intToChars, if_pos hneg, hsh]
        simp
      rw [hstep, pvNegDigit f depth h1 (t1 ++ R) hlo hhi]
      have hpn : parseNum ('-' :: h1 :: (t1 ++ R)) = NumRes.int i R := by
        have h2 := parseNum_rt i R hR
        rw [intToChars, if_pos hneg, hsh] at h2
        simpa using h2
      rw [hpn]
    · obtain ⟨h1, t1, hsh, hlo, hhi, _⟩ := natToChars_shape i.natAbs
      have hstep : dumpsVal lvl (Json.num i) ++ R = h1 :: (t1 ++ R) := by
        rw [dumpsVal, intToChars, if_neg hneg, hsh]
        simp
      rw [hstep, pvNumPos f depth h1 (t1 ++ R) hlo hhi]
      have hpn : parseNum (h1 :: (t1 ++ R)) = NumRes.int i R := by
        have h2 := parseNum_rt i R hR
        rw [intToChars, if_neg hneg, hsh] at h2
        simpa using h2
      rw [hpn]
  | Json.str s, fuel, depth, lvl, R, _, hc, _, _ => by
    obtain ⟨f, rfl⟩ : ∃ f, fuel = f + 1 :=
      ⟨fuel - 1, by simp only [callsJson] at hc; omega⟩
    have hstep : dumpsVal lvl (Json.str s) ++ R = '"' :: (escAll s ++ '"' :: R) := by
      rw [dumpsVal, quoteStr_append]
    rw [hstep, pvStr f depth _, parseStr_quote]
    rfl
  | Json.arr JList.nil, fuel, depth, lvl, R, _, hc, hd, _ => by
    obtain ⟨f, rfl⟩ : ∃ f, fuel = f + 1 :=
      ⟨fuel - 1, by simp only [callsJson] at hc; omega⟩
    obtain ⟨d', rfl⟩ : ∃ d', depth = d' + 1 :=
      ⟨depth - 1, by simp only [jdepth] at hd; omega⟩
    exact pvArrNil f d' R
  | Json.arr (JList.lcons j r), fuel, depth, lvl, R, hwf, hc, hd, hR => by
    obtain ⟨f, rfl⟩ : ∃ f, fuel = f + 1 :=
      ⟨fuel - 1, by simp only [callsJson] at hc; omega⟩
    obtain ⟨d', rfl⟩ : ∃ d', depth = d' + 1 :=
      ⟨depth - 1, by simp only [jdepth] at hd; omega⟩
    have hstep : dumpsVal lvl (Json.arr (JList.lcons j r)) ++ R
        = '[' :: ('\n' :: (dumpsItems (lvl + 1) (JList.lcons j r) ++
            ('\n' :: (indentN lvl ++ (']' :: R))))) := by
      rw [dumpsVal]
      simp [List.cons_append, List.append_assoc]
    obtain ⟨ch, ct, hskh, hghh⟩ :=
      skipJWs_items_head lvl j r ('\n' :: (indentN lvl ++ (']' :: R)))
    rw [hstep, pvArrCons f d' _ ch ct hskh hghh]
    rw [rt_items (JList.lcons j r) JList.nil f d' lvl R hwf
        (by simp only [callsJson] at hc; omega)
        (by simp only [jdepth] at hd; omega)
        (by intro hh; exact JList.noConfusion hh)]
    rw [jlistFold_eq_app]
    rfl
  | Json.obj JObj.nil, fuel, depth, lvl, R, _, hc, hd, _ => by
    obtain ⟨f, rfl⟩ : ∃ f, fuel = f + 1 :=
      ⟨fuel - 1, by simp only [callsJson] at hc; omega⟩
    obtain ⟨d', rfl⟩ : ∃ d', depth = d' + 1 :=
      ⟨depth - 1, by simp only [jdepth] at hd; omega⟩
    exact pvObjNil f d' R
  | Json.obj (JObj.ocons k v o), fuel, depth, lvl, R, hwf, hc, hd, hR => by
    obtain ⟨f, rfl⟩ : ∃ f, fuel = f + 1 :=
      ⟨fuel - 1, by simp only [callsJson] at hc; omega⟩
    obtain ⟨d', rfl⟩ : ∃ d', depth = d' + 1 :=
      ⟨depth - 1, by simp only [jdepth] at hd; omega⟩
    have hstep : dumpsVal lvl (Json.obj (JObj.ocons k v o)) ++ R
        = Char.ofNat 123 :: ('\n' :: (dumpsMembers (lvl + 1) (JObj.ocons k v o) ++
            ('\n' :: (indentN lvl ++ (Char.ofNat 125 :: R))))) := by
      rw [dumpsVal]
      simp [List.cons_append, List.append_assoc]
    obtain ⟨ch, ct, hskh, hghh⟩ :=
      skipJWs_members_head lvl k v o ('\n' :: (indentN lvl ++ (Char.ofNat 125 :: R)))
    rw [hstep, pvObjCons f d' _ ch ct hskh hghh]
    rw [rt_members (JObj.ocons k v o) JObj.nil f d' lvl R hwf
        (by simp only [callsJson] at hc; omega)
        (by simp only [jdepth] at hd; omega)
        (by intro hh; exact JObj.noConfusion hh)]
    rw [objFold_nil _ hwf]

/-- Round trip for the element list of a nonempty printed array. -/
theorem rt_items : ∀ (L : JList) (acc : JList) (fuel depth lvl : Nat) (R : List Char),
    wfList L = true → callsList L ≤ fuel → jdepthList L ≤ depth → L ≠ JList.nil →
    parseItems fuel depth acc
        ('\n' :: (dumpsItems (lvl + 1) L ++ ('\n' :: (indentN lvl ++ (']' :: R)))))
      = PRes.done (Json.arr (jlistFold acc L), R)
  | JList.nil, acc, fuel, depth, lvl, R, _, _, _, hne => absurd rfl hne
  | JList.lcons j r, acc, fuel, depth, lvl, R, hwf, hc, hd, _ => by
    obtain ⟨f, rfl⟩ : ∃ f, fuel = f + 1 :=
      ⟨fuel - 1, by simp only [callsList] at hc; omega⟩
    have hcj : callsJson j ≤ f := by simp only [callsList] at hc; omega
    have hdj : jdepth j ≤ depth := by simp only [jdepthList] at hd; omega
    obtain ⟨hwj, hwr⟩ : wfJson j = true ∧ wfList r = true := by
      simp only [wfList, Bool.and_eq_true] at hwf
      exact hwf
    rw [pi_unfold]
    cases r with
    | nil =>
      have hskip : skipJWs ('\n' :: (dumpsItems (lvl + 1) (JList.lcons j JList.nil) ++
            ('\n' :: (indentN lvl ++ (']' :: R)))))
          = skipJWs (dumpsVal (lvl + 1) j ++
              ('\n' :: (indentN lvl ++ (']' :: R)))) := by
        rw [skipJWs_newline, dumpsItems, List.append_assoc, skipJWs_indent]
      have hcv : parseVal f depth
          ('\n' :: (dumpsItems (lvl + 1) (JList.lcons j JList.nil) ++
            ('\n' :: (indentN lvl ++ (']' :: R)))))
          = PRes.done (j, '\n' :: (indentN lvl ++ (']' :: R))) := by
        rw [parseVal_congr f depth _ _ hskip]
        exact rt_val j f depth (lvl + 1) _ hwj hcj hdj rfl
      rw [hcv, piCont]
      rw [show skipJWs ('\n' :: (indentN lvl ++ (']' :: R))) = ']' :: R from by
        rw [skipJWs_newline, skipJWs_indent]
        simp [skipJWs, List.dropWhile_cons]]
      rfl
    | lcons j2 r2 =>
      have hskip : skipJWs ('\n' :: (dumpsItems (lvl + 1)
              (JList.lcons j (JList.lcons j2 r2)) ++
            ('\n' :: (indentN lvl ++ (']' :: R)))))
          = skipJWs (dumpsVal (lvl + 1) j ++
              (',' :: ('\n' :: (dumpsItems (lvl + 1) (JList.lcons j2 r2) ++
                ('\n' :: (indentN lvl ++ (']' :: R))))))) := by
        rw [skipJWs_newline, dumpsItems]
        · simp only [List.cons_append, List.append_assoc]
          rw [skipJWs_indent]
        · exact fun hh => JList.noConfusion hh
      have hcv : parseVal f depth
          ('\n' :: (dumpsItems (lvl + 1) (JList.lcons j (JList.lcons j2 r2)) ++
            ('\n' :: (indentN lvl ++ (']' :: R)))))
          = PRes.done (j, ',' :: ('\n' :: (dumpsItems (lvl + 1)
              (JList.lcons j2 r2) ++ ('\n' :: (indentN lvl ++ (']' :: R)))))) := by
        rw [parseVal_congr f depth _ _ hskip]
        exact rt_val j f depth (lvl + 1) _ hwj hcj hdj rfl
      rw [hcv, piCont]
      rw [show skipJWs (',' :: ('\n' :: (dumpsItems (lvl + 1) (JList.lcons j2 r2) ++
            ('\n' :: (indentN lvl ++ (']' :: R))))))
          = ',' :: ('\n' :: (dumpsItems (lvl + 1) (JList.lcons j2 r2) ++
            ('\n' :: (indentN lvl ++ (']' :: R))))) from rfl]
      exact rt_items (JList.lcons j2 r2) (jlistSnoc acc j) f depth lvl R hwr
        (by simp only [callsList] at hc ⊢; omega)
        (by simp only [jdepthList] at hd ⊢; omega)
        (by intro hh; exact JList.noConfusion hh)

/-- Round trip for the member list of a nonempty printed object. -/
theorem rt_members : ∀ (O : JObj) (acc : JObj) (fuel depth lvl : Nat) (R : List Char),
    wfObj O = true → callsObj O ≤ fuel → jdepthObj O ≤ depth → O ≠ JObj.nil →
    parseMembers fuel depth acc
        ('\n' :: (dumpsMembers (lvl + 1) O ++
          ('\n' :: (indentN lvl ++ (Char.ofNat 125 :: R)))))
      = PRes.done (Json.obj (objFold acc O), R)
  | JObj.nil, acc, fuel, depth, lvl, R, _, _, _, hne => absurd rfl hne
  | JObj.ocons k v O', acc, fuel, depth, lvl, R, hwf, hc, hd, _ => by
    obtain ⟨f, rfl⟩ : ∃ f, fuel = f + 1 :=
      ⟨fuel - 1, by simp only [callsObj] at hc; omega⟩
    have hcv : callsJson v ≤ f := by simp only [callsObj] at hc; omega
    have hdv : jdepth v ≤ depth := by simp only [jdepthObj] at hd; omega
    obtain ⟨⟨hk, hv⟩, hO⟩ :
        ((!hasKeyO O' k) = true ∧ wfJson v = true) ∧ wfObj O' = true := by
      simp only [wfObj, Bool.and_eq_true] at hwf
      exact hwf
    rw [pm_unfold]
    cases O' with
    | nil =>
      have hsk : skipJWs ('\n' :: (dumpsMembers (lvl + 1) (JObj.ocons k v JObj.nil) ++
            ('\n' :: (indentN lvl ++ (Char.ofNat 125 :: R)))))
          = '"' :: (escAll k ++ '"' :: (':' :: (' ' :: (dumpsVal (lvl + 1) v ++
              ('\n' :: (indentN lvl ++ (Char.ofNat 125 :: R))))))) := by
        rw [skipJWs_newline, dumpsMembers]
        simp only [List.cons_append, List.append_assoc]
        rw [skipJWs_indent, quoteStr_append,
            skipJWs_cons_of_goodHead _ _ (by decide)]
      rw [hsk]
      show pmCont f depth acc (parseStr (escAll k ++ '"' :: (':' :: (' ' ::
          (dumpsVal (lvl + 1) v ++
            ('\n' :: (indentN lvl ++ (Char.ofNat 125 :: R))))))))
        = PRes.done (Json.obj (objFold acc (JObj.ocons k v JObj.nil)), R)
      rw [parseStr_quote, pmCont]
      rw [show skipJWs (':' :: (' ' :: (dumpsVal (lvl + 1) v ++
            ('\n' :: (indentN lvl ++ (Char.ofNat 125 :: R))))))
          = ':' :: (' ' :: (dumpsVal (lvl + 1) v ++
            ('\n' :: (indentN lvl ++ (Char.ofNat 125 :: R))))) from rfl]
      show pmCont2 f depth acc k (parseVal f depth (' ' :: (dumpsVal (lvl + 1) v ++
          ('\n' :: (indentN lvl ++ (Char.ofNat 125 :: R))))))
        = PRes.done (Json.obj (objFold acc (JObj.ocons k v JObj.nil)), R)
      have hpv : parseVal f depth (' ' :: (dumpsVal (lvl + 1) v ++
            ('\n' :: (indentN lvl ++ (Char.ofNat 125 :: R)))))
          = PRes.done (v, '\n' :: (indentN lvl ++ (Char.ofNat 125 :: R))) := by
        rw [parseVal_congr f depth _ _ (skipJWs_space _)]
        exact rt_val v f depth (lvl + 1) _ hv hcv hdv rfl
      rw [hpv, pmCont2]
      rw [show skipJWs ('\n' :: (indentN lvl ++ (Char.ofNat 125 :: R)))
          = Char.ofNat 125 :: R from by
        rw [skipJWs_newline, skipJWs_indent]
        simp [skipJWs, List.dropWhile_cons]]
      rfl
    | ocons k2 v2 o2 =>
      have hsk : skipJWs ('\n' :: (dumpsMembers (lvl + 1)
              (JObj.ocons k v (JObj.ocons k2 v2 o2)) ++
            ('\n' :: (indentN lvl ++ (Char.ofNat 125 :: R)))))
          = '"' :: (escAll k ++ '"' :: (':' :: (' ' :: (dumpsVal (lvl + 1) v ++
              (',' :: ('\n' :: (dumpsMembers (lvl + 1) (JObj.ocons k2 v2 o2) ++
                ('\n' :: (indentN lvl ++ (Char.ofNat 125 :: R)))))))))) := by
        rw [skipJWs_newline, dumpsMembers]
        · simp only [List.cons_append, List.append_assoc]
          rw [skipJWs_indent, quoteStr_append,
              skipJWs_cons_of_goodHead _ _ (by decide)]
        · exact fun hh => JObj.noConfusion hh
      rw [hsk]
      show pmCont f depth acc (parseStr (escAll k ++ '"' :: (':' :: (' ' ::
          (dumpsVal (lvl + 1) v ++
            (',' :: ('\n' :: (dumpsMembers (lvl + 1) (JObj.ocons k2 v2 o2) ++
              ('\n' :: (indentN lvl ++ (Char.ofNat 125 :: R)))))))))))
        = PRes.done (Json.obj (objFold acc (JObj.ocons k v (JObj.ocons k2 v2 o2))), R)
      rw [parseStr_quote, pmCont]
      rw [show skipJWs (':' :: (' ' :: (dumpsVal (lvl + 1) v ++
            (',' :: ('\n' :: (dumpsMembers (lvl + 1) (JObj.ocons k2 v2 o2) ++
              ('\n' :: (indentN lvl ++ (Char.ofNat 125 :: R)))))))))
          = ':' :: (' ' :: (dumpsVal (lvl + 1) v ++
            (',' :: ('\n' :: (dumpsMembers (lvl + 1) (JObj.ocons k2 v2 o2) ++
              ('\n' :: (indentN lvl ++ (Char.ofNat 125 :: R)))))))) from rfl]
      show pmCont2 f depth acc k (parseVal f depth (' ' :: (dumpsVal (lvl + 1) v ++
          (',' :: ('\n' :: (dumpsMembers (lvl + 1) (JObj.ocons k2 v2 o2) ++
            ('\n' :: (indentN lvl ++ (Char.ofNat 125 :: R)))))))))
        = PRes.done (Json.obj (objFold acc (JObj.ocons k v (JObj.ocons k2 v2 o2))), R)
      have hpv : parseVal f depth (' ' :: (dumpsVal (lvl + 1) v ++
            (',' :: ('\n' :: (dumpsMembers (lvl + 1) (JObj.ocons k2 v2 o2) ++
              ('\n' :: (indentN lvl ++ (Char.ofNat 125 :: R))))))))
          = PRes.done (v, ',' :: ('\n' :: (dumpsMembers (lvl + 1)
              (JObj.ocons k2 v2 o2) ++
              ('\n' :: (indentN lvl ++ (Char.ofNat 125 :: R)))))) := by
        rw [parseVal_congr f depth _ _ (skipJWs_space _)]
        exact rt_val v f depth (lvl + 1) _ hv hcv hdv rfl
      rw [hpv, pmCont2]
      rw [show skipJWs (',' :: ('\n' :: (dumpsMembers (lvl + 1)
              (JObj.ocons k2 v2 o2) ++
            ('\n' :: (indentN lvl ++ (Char.ofNat 125 :: R))))))
          = ',' :: ('\n' :: (dumpsMembers (lvl + 1) (JObj.ocons k2 v2 o2) ++
            ('\n' :: (indentN lvl ++ (Char.ofNat 125 :: R))))) from rfl]
      exact rt_members (JObj.ocons k2 v2 o2) (objInsert acc k v) f depth lvl R hO
        (by simp only [callsObj] at hc ⊢; omega)
        (by simp only [jdepthObj] at hd ⊢; omega)
        (by intro hh; exact JObj.noConfusion hh)
end

/-- A mapped parse returning a value came from a value. -/
theorem PRes_map_done {α β : Type} (f : α → β) (x : PRes α) (y : β)
    (h : x.map f = PRes.done y) : ∃ a, x = PRes.done a ∧ f a = y := by
  cases x with
  | done a =>
    refine ⟨a, rfl, ?_⟩
    simpa [PRes.map] using h
  | failed => simp [PRes.map] at h
  | outside => simp [PRes.map] at h

/-- Appending an element keeps a well-formed element list well-formed. -/
theorem wfList_jlistSnoc : ∀ (acc : JList) (v : Json),
    wfList acc = true → wfJson v = true → wfList (jlistSnoc acc v) = true
  | JList.nil, v, _, hv => by simp [jlistSnoc, wfList, hv]
  | JList.lcons a rest, v, hacc, hv => by
    simp only [wfList, Bool.and_eq_true] at hacc
    simp [jlistSnoc, wfList, hacc.1, wfList_jlistSnoc rest v hacc.2 hv]

/-- Appending an element only raises the depth to the element's. -/
theorem jdepthList_jlistSnoc : ∀ (acc : JList) (v : Json),
    jdepthList (jlistSnoc acc v) ≤ max (jdepthList acc) (jdepth v)
  | JList.nil, v => by simp [jlistSnoc, jdepthList]
  | JList.lcons a rest, v => by
    simp only [jlistSnoc, jdepthList]
    have h := jdepthList_jlistSnoc rest v
    omega

set_option maxHeartbeats 2000000 in
mutual
/-- Any value the parser returns is well-formed and fits the depth budget. -/
theorem pv_wf : ∀ (fuel depth : Nat) (l : List Char) (j : Json) (r : List Char),
    parseVal fuel depth l = PRes.done (j, r) → wfJson j = true ∧ jdepth j ≤ depth
  | 0, depth, l, j, r => by
    intro h
    exact absurd h (by simp [parseVal])
  | fuel + 1, depth, l, j, r => by
    intro h
    rw [parseVal] at h
    cases depth with
    | zero =>
      repeat' split at h
      all_goals try contradiction
      all_goals try (
        obtain ⟨a, hps, hfa⟩ := PRes_map_done _ _ _ h
        obtain ⟨s2', r2'⟩ := a
        injection hfa with h2 h3
        subst h2
        exact ⟨rfl, by simp only [jdepth]; omega⟩)
      all_goals try (simp at h)
      all_goals (
        obtain ⟨h2, h3⟩ := h
        subst h2
        exact ⟨rfl, by simp only [jdepth, jdepthList, jdepthObj]; omega⟩)
    | succ depth' =>
      repeat' split at h
      all_goals try contradiction
      all_goals try (
        obtain ⟨hw, hb⟩ := pm_wf fuel _ JObj.nil _ j r rfl (Nat.zero_le _) h
        exact ⟨hw, by omega⟩)
      all_goals try (
        obtain ⟨hw, hb⟩ := pi_wf fuel _ JList.nil _ j r rfl (Nat.zero_le _) h
        exact ⟨hw, by omega⟩)
      all_goals try (
        obtain ⟨a2, hps2, hfa2⟩ := PRes_map_done _ _ _ h
        obtain ⟨s3', r3'⟩ := a2
        injection hfa2 with h4 h5
        subst h4
        exact ⟨rfl, by simp only [jdepth]; omega⟩)
      all_goals try (simp at h)
      all_goals (
        obtain ⟨h2, h3⟩ := h
        subst h2
        exact ⟨rfl, by simp only [jdepth, jdepthList, jdepthObj]; omega⟩)

/-- Any object the member parser returns is well-formed and fits the budget. -/
theorem pm_wf : ∀ (fuel depth : Nat) (acc : JObj) (l : List Char) (j : Json)
    (r : List Char),
    wfObj acc = true → jdepthObj acc ≤ depth →
    parseMembers fuel depth acc l = PRes.done (j, r) →
    wfJson j = true ∧ jdepth j ≤ depth + 1
  | 0, depth, acc, l, j, r => by
    intro _ _ h
    exact absurd h (by simp [parseMembers])
  | fuel + 1, depth, acc, l, j, r => by
    intro hacc hdacc h
    rw [pm_unfold] at h
    split at h
    · rename_i rest heqr
      cases hps : parseStr rest with
      | done pr =>
        obtain ⟨kk, r2⟩ := pr
        rw [hps, pmCont] at h
        split at h
        · rename_i r3 heqr3
          cases hpv : parseVal fuel depth r3 with
          | done pr2 =>
            obtain ⟨v, r4⟩ := pr2
            have hvwf := pv_wf fuel depth r3 v r4 hpv
            rw [hpv, pmCont2] at h
            split at h
            · exact pm_wf fuel depth (objInsert acc kk v) _ j r
                (wfObj_objInsert acc kk v hacc hvwf.1)
                (by have h4 := jdepthObj_objInsert acc kk v; omega)
                h
            · split at h
              · injection h with h1
                injection h1 with h2 h3
                subst h2
                constructor
                · exact wfObj_objInsert acc kk v hacc hvwf.1
                · have h4 := jdepthObj_objInsert acc kk v
                  have h5 := hvwf.2
                  simp only [jdepth]
                  omega
              · exact absurd h (by simp)
            · exact absurd h (by simp)
          | failed =>
            rw [hpv, pmCont2] at h
            exact absurd h (by simp)
          | outside =>
            rw [hpv, pmCont2] at h
            exact absurd h (by simp)
        · exact absurd h (by simp)
      | failed =>
        rw [hps, pmCont] at h
        exact absurd h (by simp)
      | outside =>
        rw [hps, pmCont] at h
        exact absurd h (by simp)
    · exact absurd h (by simp)

/-- Any array the element parser returns is well-formed and fits the budget. -/
theorem pi_wf : ∀ (fuel depth : Nat) (acc : JList) (l : List Char) (j : Json)
    (r : List Char),
    wfList acc = true → jdepthList acc ≤ depth →
    parseItems fuel depth acc l = PRes.done (j, r) →
    wfJson j = true ∧ jdepth j ≤ depth + 1
  | 0, depth, acc, l, j, r => by
    intro _ _ h
    exact absurd h (by simp [parseItems])
  | fuel + 1, depth, acc, l, j, r => by
    intro hacc hdacc h
    rw [pi_unfold] at h
    cases hpv : parseVal fuel depth l with
    | done pr =>
      obtain ⟨v, r2⟩ := pr
      have hvwf := pv_wf fuel depth l v r2 hpv
      rw [hpv, piCont] at h
      split at h
      · exact pi_wf fuel depth (jlistSnoc acc v) _ j r
          (wfList_jlistSnoc acc v hacc hvwf.1)
          (by have h4 := jdepthList_jlistSnoc acc v; omega)
          h
      · split at h
        · injection h with h1
          injection h1 with h2 h3
          subst h2
          constructor
          · exact wfList_jlistSnoc acc v hacc hvwf.1
          · have h4 := jdepthList_jlistSnoc acc v
            have h5 := hvwf.2
            simp only [jdepth]
            omega
        · exact absurd h (by simp)
      · exact absurd h (by simp)
    | failed =>
      rw [hpv, piCont] at h
      exact absurd h (by simp)
    | outside =>
      rw [hpv, piCont] at h
      exact absurd h (by simp)
end

/-- Any value `parseJson` returns is well-formed and within the depth bound. -/
theorem parseJson_wf (s : List Char) (j : Json) (h : parseJson s = PRes.done j) :
    wfJson j = true ∧ jdepth j ≤ maxJsonDepth := by
  rw [parseJson] at h
  split at h
  · rename_i j' rest heq
    split at h
    · injection h with h1
      subst h1
      exact pv_wf _ maxJsonDepth s j' rest heq
    · exact absurd h (by simp)
  · exact absurd h (by simp)
  · exact absurd h (by simp)

/-- Parsing the printed form of a bounded well-formed value recovers it. -/
theorem rt_top (j : Json) (hwf : wfJson j = true) (hd : jdepth j ≤ maxJsonDepth) :
    parseJson (dumpsTop j ++ ['\n']) = PRes.done j := by
  rw [parseJson, dumpsTop]
  have hcall : callsJson j ≤ (dumpsVal 0 j ++ ['\n']).length + 2 := by
    have h1 := callsJson_le j 0
    simp only [List.length_append, List.length_cons, List.length_nil]
    omega
  rw [rt_val j ((dumpsVal 0 j ++ ['\n']).length + 2) maxJsonDepth 0 ['\n']
      hwf hcall hd rfl]
  rfl

/-- The manifest patcher is idempotent. -/
theorem pkgStep_idem (slug : List Char) (s2 : List Char) :
    pkgStep slug (pkgStep slug s2) = pkgStep slug s2 := by
  cases hp : parseJson s2 with
  | done j =>
    by_cases he : manifestEligible j = true
    · obtain ⟨o, rfl⟩ : ∃ o, j = Json.obj o := by
        cases j with
        | obj o => exact ⟨o, rfl⟩
        | null => exact absurd he (by simp [manifestEligible])
        | bool b => exact absurd he (by simp [manifestEligible])
        | num i => exact absurd he (by simp [manifestEligible])
        | str s => exact absurd he (by simp [manifestEligible])
        | arr l => exact absurd he (by simp [manifestEligible])
      have hwd := parseJson_wf s2 (Json.obj o) hp
      have hwf' : wfJson (Json.obj (objInsert o nameKey (Json.str (npmName slug))))
          = true :=
        wfObj_objInsert o nameKey (Json.str (npmName slug)) hwd.1 rfl
      have hd' : jdepth (Json.obj (objInsert o nameKey (Json.str (npmName slug))))
          ≤ maxJsonDepth := by
        have h1 := jdepthObj_objInsert o nameKey (Json.str (npmName slug))
        have h2 := hwd.2
        simp only [jdepth, jdepthObj] at h1 h2 ⊢
        omega
      have h1 : pkgStep slug s2
          = dumpsTop (Json.obj (objInsert o nameKey (Json.str (npmName slug))))
            ++ ['\n'] := by
        rw [pkgStep, hp]
        show (if manifestEligible (Json.obj o) = true
              then dumpsTop (setName (Json.obj o) (Json.str (npmName slug))) ++ ['\n']
              else s2)
            = _
        rw [if_pos he, setName]
      rw [h1, pkgStep, rt_top _ hwf' hd']
      have hel : manifestEligible
          (Json.obj (objInsert o nameKey (Json.str (npmName slug)))) = true := by
        rw [manifestEligible, objLookup_objInsert_self]
      show (if manifestEligible (Json.obj (objInsert o nameKey
                (Json.str (npmName slug)))) = true
            then dumpsTop (setName (Json.obj (objInsert o nameKey
                (Json.str (npmName slug)))) (Json.str (npmName slug))) ++ ['\n']
            else dumpsTop (Json.obj (objInsert o nameKey (Json.str (npmName slug))))
              ++ ['\n'])
          = dumpsTop (Json.obj (objInsert o nameKey (Json.str (npmName slug))))
            ++ ['\n']
      rw [if_pos hel, setName, objInsert_objInsert]
    · have h1 : pkgStep slug s2 = s2 := by
        rw [pkgStep, hp]
        show (if manifestEligible j = true
              then dumpsTop (setName j (Json.str (npmName slug))) ++ ['\n']
              else s2) = s2
        rw [if_neg he]
      rw [h1]
      exact h1
  | failed =>
    have h1 : pkgStep slug s2 = s2 := by rw [pkgStep, hp]
    rw [h1]
    exact h1
  | outside =>
    have h1 : pkgStep slug s2 = s2 := by rw [pkgStep, hp]
    rw [h1]
    exact h1

/-! ## C3: idempotence of re-running the rule sequence -/

/-- When the scanner finds no match, substitution returns the text intact. -/
theorem reSubAux_eq_of_no_match (p : List PItem) (r : List Char) :
    ∀ (fuel : Nat) (w : Bool) (s : List Char),
    hasMatchAux p fuel w s = false → reSubAux p r fuel w s = s := by
  intro fuel
  induction fuel with
  | zero => intro w s _; rfl
  | succ n ih =>
    intro w s hm
    cases s with
    | nil => rfl
    | cons c rest =>
      cases w with
      | true =>
        have hm' : hasMatchAux p n (isWordChar c) rest = false := hm
        show c :: reSubAux p r n (isWordChar c) rest = c :: rest
        exact congrArg (List.cons c) (ih _ _ hm')
      | false =>
        have g0 : reSubAux p r (n + 1) false (c :: rest)
            = (match matchHere p (c :: rest) with
               | some after => r ++ reSubAux p r n true after
               | none => c :: reSubAux p r n (isWordChar c) rest) := rfl
        have h0 : (match matchHere p (c :: rest) with
            | some _ => true
            | none => hasMatchAux p n (isWordChar c) rest) = false := hm
        cases hmh : matchHere p (c :: rest) with
        | some after =>
          rw [hmh] at h0
          exact Bool.noConfusion h0
        | none =>
          rw [hmh] at h0
          rw [g0, hmh]
          exact congrArg (List.cons c) (ih _ _ h0)

/-- `re.sub` is the identity on a text without a match of its pattern. -/
theorem reSub_eq_of_no_match (p : List PItem) (r : List Char) (s : List Char)
    (h : hasMatch p s = false) : reSub p r s = s :=
  reSubAux_eq_of_no_match p r (s.length + 1) false s h

/-- The whole rule list is the identity on a text without any match. -/
theorem replace_in_text_eq_of_no_match :
    ∀ (m : List (List PItem × List Char)) (s : List Char),
    (∀ pr ∈ m, hasMatch pr.1 s = false) → replace_in_text s m = s := by
  intro m
  induction m with
  | nil => intro s _; rfl
  | cons pr m' ih =>
    intro s h
    have h1 : reSub pr.1 pr.2 s = s :=
      reSub_eq_of_no_match pr.1 pr.2 s (h pr (List.mem_cons_self pr m'))
    have h2 : ∀ q ∈ m', hasMatch q.1 s = false := fun q hq => h q (List.mem_cons_of_mem pr hq)
    calc replace_in_text s (pr :: m')
        = replace_in_text (reSub pr.1 pr.2 s) m' := rfl
      _ = replace_in_text s m' := by rw [h1]
      _ = s := ih s h2

/-- The counterexample's new name. -/
def cexName : List Char := cs "one"

/-- The counterexample's user-supplied slug. -/
def cexSlug : List Char := cs "x one"

/-- The mapping list built for them. -/
def cexMappings : List (List PItem × List Char) := build_mappings cexName cexSlug

/-- The counterexample file content. -/
def cexText : List Char := cs "one_shot-shot-shot"

/-- C3 counterexample: `cexName` and `cexSlug` contain no word-bounded
occurrence of any of the old name/slug variant patterns — the claim's
hypothesis holds — yet applying the compiled rule sequence a second time to
the text a completed first run produces still changes it: the first run turns
`"one_shot-shot-shot"` into `"x one-shot"` (each replacement joining with the
adjacent text to recreate a variant), and the second run turns that into
`"x one"`.  So the second run reports one changed file, not zero. -/
theorem claim_C3_counterexample :
    DEFAULT_FROM_PATTERNS.all (fun p => !hasMatch p cexName) = true ∧
    DEFAULT_FROM_PATTERNS.all (fun p => !hasMatch p cexSlug) = true ∧
    replace_in_text cexText cexMappings = cs "x one-shot" ∧
    (replace_in_text (replace_in_text cexText cexMappings) cexMappings
      == replace_in_text cexText cexMappings) = false := by decide

/-- No word-bounded occurrence of any of the six old name/slug variant
patterns. -/
def patternFree (s : List Char) : Bool :=
  DEFAULT_FROM_PATTERNS.all (fun p => !hasMatch p s)

/-- On a pattern-free text the whole compiled rule sequence is the identity:
every rule's pattern is one of the six variants. -/
theorem replace_fix (name slug s : List Char) (h : patternFree s = true) :
    replace_in_text s (build_mappings name slug) = s := by
  rw [patternFree, DEFAULT_FROM_PATTERNS] at h
  simp only [List.all_cons, List.all_nil, Bool.and_eq_true, Bool.and_true,
    Bool.not_eq_true'] at h
  obtain ⟨h1, h2, h3, h4, h5, h6⟩ := h
  apply replace_in_text_eq_of_no_match
  intro pr hpr
  simp only [build_mappings, DEFAULT_FROM_PATTERNS, List.mem_append, List.mem_map,
    List.mem_cons, List.not_mem_nil, or_false] at hpr
  rcases hpr with ⟨q, hq, rfl⟩ | hpr
  · rcases hq with rfl | rfl | rfl | rfl | rfl | rfl
    · exact h1
    · exact h2
    · exact h3
    · exact h4
    · exact h5
    · exact h6
  · rcases hpr with rfl | rfl | rfl
    · exact h4
    · exact h5
    · exact h6

/-- Re-running the per-file content pipeline on its own pattern-free output
changes nothing: the generic pass is the identity there, and the manifest
patcher is idempotent. -/
theorem processContent_second (name slug : List Char) (b : Bool) (s : List Char)
    (h2 : patternFree (processContent (build_mappings name slug) slug b s) = true) :
    processContent (build_mappings name slug) slug b
        (processContent (build_mappings name slug) slug b s)
      = processContent (build_mappings name slug) slug b s := by
  cases b with
  | false =>
    simp only [processContent, Bool.false_eq_true, if_false] at h2 ⊢
    exact replace_fix name slug _ h2
  | true =>
    simp only [processContent, if_true] at h2 ⊢
    rw [replace_fix name slug _ h2]
    exact pkgStep_idem slug (replace_in_text s (build_mappings name slug))

/-- A file the first run rewrote is left alone by a second run, provided its
new content is pattern-free. -/
theorem processFile_second (name slug : List Char) (f : RFile) (s2 : List Char)
    (h1 : processFile (build_mappings name slug) slug f = some s2)
    (h2 : patternFree s2 = true) :
    processFile (build_mappings name slug) slug ⟨f.name, s2⟩ = none := by
  rw [processFile] at h1
  split at h1
  · rename_i htext
    simp only [] at h1
    split at h1
    · exact absurd h1 (by simp)
    · rename_i hne
      injection h1 with hs2
      rw [processFile]
      split
    
      · have hkey := processContent_second name slug
          (decide (f.name = cs "package.json")) f.content (by rw [hs2]; exact h2)
        rw [hs2] at hkey
        rw [if_pos hkey]
      · rfl
  · exact absurd h1 (by simp)

/-- Shape of the files a run writes back: untouched originals, or rewrites of
an input file. -/
theorem runFiles_result_mem (m : List (List PItem × List Char)) (slug : List Char) :
    ∀ (fs : List RFile) (g : RFile), g ∈ (runFiles m slug false fs).result →
    processFile m slug g = none ∨
      ∃ f s2, processFile m slug f = some s2 ∧ g = ⟨f.name, s2⟩
  | [], g => by intro hg; simp [runFiles] at hg
  | f :: rest, g => by
    intro hg
    rw [runFiles] at hg
    cases hpf : processFile m slug f with
    | some s2 =>
      rw [hpf] at hg
      simp only [Bool.false_eq_true, if_false] at hg
      rcases List.mem_cons.mp hg with hg | hg
      · exact Or.inr ⟨f, s2, hpf, hg⟩
      · exact runFiles_result_mem m slug rest g hg
    | none =>
      rw [hpf] at hg
      rcases List.mem_cons.mp hg with hg | hg
      · subst hg
        exact Or.inl hpf
      · exact runFiles_result_mem m slug rest g hg

/-- When no file changes, the loop reports nothing and keeps the list. -/
theorem runFiles_nochange (m : List (List PItem × List Char)) (slug : List Char)
    (d : Bool) : ∀ (fs : List RFile), (∀ f ∈ fs, processFile m slug f = none) →
    (runFiles m slug d fs).count = 0 ∧ (runFiles m slug d fs).changed = [] ∧
    (runFiles m slug d fs).result = fs
  | [], _ => ⟨rfl, rfl, rfl⟩
  | f :: rest, h => by
    have hf := h f (List.mem_cons_self f rest)
    have ih := runFiles_nochange m slug d rest
      (fun g hg => h g (List.mem_cons_of_mem f hg))
    rw [runFiles, hf]
    exact ⟨ih.1, ih.2.1, by rw [ih.2.2]⟩

/-- A second pass over the output of the per-directory file loop changes
nothing when every output file is pattern-free. -/
theorem runFiles_second (name slug : List Char) (fs : List RFile)
    (h : ((runFiles (build_mappings name slug) slug false fs).result).all
        (fun g => patternFree g.content) = true) :
    (runFiles (build_mappings name slug) slug false
        ((runFiles (build_mappings name slug) slug false fs).result)).count = 0 ∧
    (runFiles (build_mappings name slug) slug false
        ((runFiles (build_mappings name slug) slug false fs).result)).changed = [] ∧
    (runFiles (build_mappings name slug) slug false
        ((runFiles (build_mappings name slug) slug false fs).result)).result
      = (runFiles (build_mappings name slug) slug false fs).result := by
  apply runFiles_nochange
  intro g hg
  rcases runFiles_result_mem (build_mappings name slug) slug fs g hg with hnone | ⟨f, s2, hsome, hgs⟩
  · exact hnone
  · subst hgs
    refine processFile_second name slug f s2 hsome ?_
    have := List.all_eq_true.mp h _ hg
    simpa using this

mutual
/-- Per-tree condition: every file outside excluded subtrees is pattern-free. -/
def treeContentsOk : DirTree → Bool
  | DirTree.node files fo =>
    files.all (fun f => patternFree f.content) && forestContentsOk fo

/-- The same condition over subdirectories, skipping excluded names exactly as
the walk does. -/
def forestContentsOk : Forest → Bool
  | Forest.nil => true
  | Forest.fcons d t rest =>
    (EXCLUDE_DIRS.contains d || treeContentsOk t) && forestContentsOk rest
end

mutual
/-- A second walk over the output tree of a first run changes no file and
reports zero, whenever the output tree is pattern-free outside excluded
subtrees. -/
theorem runTree_second : ∀ (name slug : List Char) (t : DirTree),
    treeContentsOk ((runTree (build_mappings name slug) slug false t).result) = true →
    (runTree (build_mappings name slug) slug false
        ((runTree (build_mappings name slug) slug false t).result)).count = 0 ∧
    (runTree (build_mappings name slug) slug false
        ((runTree (build_mappings name slug) slug false t).result)).changed = [] ∧
    (runTree (build_mappings name slug) slug false
        ((runTree (build_mappings name slug) slug false t).result)).result
      = (runTree (build_mappings name slug) slug false t).result
  | name, slug, DirTree.node files fo => by
    intro hok
    rw [runTree] at hok ⊢
    rw [runTree]
    simp only [treeContentsOk, Bool.and_eq_true] at hok
    have hf := runFiles_second name slug files hok.1
    have hs := runForest_second name slug fo hok.2
    refine ⟨?_, ?_, ?_⟩
    · simp only [hf.1, hs.1]
    · simp only [hf.2.1, hs.2.1, List.append_nil, List.nil_append]
    · simp only [hf.2.2, hs.2.2]

/-- The same for a list of subdirectories. -/
theorem runForest_second : ∀ (name slug : List Char) (fo : Forest),
    forestContentsOk ((runForest (build_mappings name slug) slug false fo).result)
      = true →
    (runForest (build_mappings name slug) slug false
        ((runForest (build_mappings name slug) slug false fo).result)).count = 0 ∧
    (runForest (build_mappings name slug) slug false
        ((runForest (build_mappings name slug) slug false fo).result)).changed = [] ∧
    (runForest (build_mappings name slug) slug false
        ((runForest (build_mappings name slug) slug false fo).result)).result
      = (runForest (build_mappings name slug) slug false fo).result
  | name, slug, Forest.nil => by
    intro _
    exact ⟨rfl, rfl, rfl⟩
  | name, slug, Forest.fcons d t rest => by
    intro hok
    by_cases hd : EXCLUDE_DIRS.contains d = true
    · rw [runForest, if_pos hd] at hok ⊢
      rw [runForest, if_pos hd]
      simp only [forestContentsOk, Bool.and_eq_true] at hok
      have ih := runForest_second name slug rest hok.2
      refine ⟨ih.1, ih.2.1, ?_⟩
      simp only [ih.2.2]
    · rw [runForest, if_neg hd] at hok ⊢
      rw [runForest, if_neg hd]
      simp only [forestContentsOk, Bool.and_eq_true] at hok
      obtain ⟨hok1, hok2⟩ := hok
      have htok : treeContentsOk
          ((runTree (build_mappings name slug) slug false t).result) = true := by
        rw [Bool.or_eq_true] at hok1
        rcases hok1 with hc | hc
        · exact absurd hc hd
        · exact hc
      have iht := runTree_second name slug t htok
      have ihr := runForest_second name slug rest hok2
      refine ⟨?_, ?_, ?_⟩
      · simp only [iht.1, ihr.1]
      · simp only [iht.2.1, ihr.2.1, prefixPaths, List.map_nil, List.append_nil,
          List.nil_append]
      · simp only [iht.2.2, ihr.2.2]
end

/-- C3 (amended): the claim's hypothesis on `new_name`/`new_slug` alone is not
enough — see the counterexample, where replacements join with adjacent text to
recreate a variant.  What holds is the fixed-point form: under the claim's
hypothesis, if additionally every file the first full run produces (outside
excluded directories) is free of word-bounded occurrences of the six old
name/slug variant patterns, then running the sequence again over the produced
tree rewrites no file, reports zero changed files, and returns the tree
unchanged — including `package.json`, whose manifest patch is idempotent. -/
theorem claim_C3_amended (name slug : List Char) (t : DirTree)
    (hname : patternFree name = true) (hslug : patternFree slug = true)
    (hfix : treeContentsOk
        ((runTree (build_mappings name slug) slug false t).result) = true) :
    (runTree (build_mappings name slug) slug false
        ((runTree (build_mappings name slug) slug false t).result)).count = 0 ∧
    (runTree (build_mappings name slug) slug false
        ((runTree (build_mappings name slug) slug false t).result)).changed = [] ∧
    (runTree (build_mappings name slug) slug false
        ((runTree (build_mappings name slug) slug false t).result)).result
      = (runTree (build_mappings name slug) slug false t).result :=
  runTree_second name slug t hfix

/-- A witness tree: a markdown file the first run rewrites, a manifest the
first run patches, and an excluded `.git` subtree that keeps an old-name
occurrence verbatim. -/
def wTree : DirTree :=
  DirTree.node
    [⟨cs "a.md", cs "say oneshot now"⟩,
     ⟨cs "package.json", cs "\x7b\"name\": \"one-shot-app\", \"k\": 1\x7d"⟩]
    (Forest.fcons (cs ".git")
      (DirTree.node [⟨cs "notes.txt", cs "oneshot stays"⟩] Forest.nil)
      Forest.nil)

/-- C3 witness: the running example on `wTree` satisfies every hypothesis
non-vacuously — the first run rewrites both files, the manifest through the
patcher — and the second run reports zero and changes nothing. -/
theorem claim_C3_amended_witness :
    patternFree acmeName = true ∧ patternFree acmeSlug = true ∧
    (runTree (build_mappings acmeName acmeSlug) acmeSlug false wTree).count = 2 ∧
    findFile ((runTree (build_mappings acmeName acmeSlug) acmeSlug false wTree).result)
        [] (cs "package.json")
      = some (cs "\x7b\n  \"name\": \"acme-rocket-app\",\n  \"k\": 1\n\x7d\n") ∧
    treeContentsOk
        ((runTree (build_mappings acmeName acmeSlug) acmeSlug false wTree).result)
      = true ∧
    ((runTree (build_mappings acmeName acmeSlug) acmeSlug false
        ((runTree (build_mappings acmeName acmeSlug) acmeSlug false wTree).result)).count
      = 0 ∧
    (runTree (build_mappings acmeName acmeSlug) acmeSlug false
        ((runTree (build_mappings acmeName acmeSlug) acmeSlug false wTree).result)).changed
      = [] ∧
    (runTree (build_mappings acmeName acmeSlug) acmeSlug false
        ((runTree (build_mappings acmeName acmeSlug) acmeSlug false wTree).result)).result
      = (runTree (build_mappings acmeName acmeSlug) acmeSlug false wTree).result) :=
  ⟨by decide, by decide, by decide, by decide, by decide,
   claim_C3_amended acmeName acmeSlug wTree (by decide) (by decide) (by decide)⟩

/-! ## C5: dry-run produces the same report and changes nothing -/

/-- Per-directory file loop: the dry-run flag affects neither the count nor
the reported paths, and under dry-run the files are returned unchanged. -/
theorem runFiles_dry_eq (m : List (List PItem × List Char)) (slug : List Char) :
    ∀ files : List RFile,
    (runFiles m slug true files).count = (runFiles m slug false files).count ∧
    (runFiles m slug true files).changed = (runFiles m slug false files).changed ∧
    (runFiles m slug true files).visited = (runFiles m slug false files).visited ∧
    (runFiles m slug true files).result = files := by
  intro files
  induction files with
  | nil => exact ⟨rfl, rfl, rfl, rfl⟩
  | cons f rest ih =>
    obtain ⟨ih1, ih2, ih3, ih4⟩ := ih
    cases hp : processFile m slug f with
    | some s2 => simp [runFiles, hp, ih1, ih2, ih3, ih4]
    | none => simp [runFiles, hp, ih1, ih2, ih3, ih4]

mutual
/-- Tree version of the dry-run frame property. -/
theorem runTree_dry_eq (m : List (List PItem × List Char)) (slug : List Char) :
    ∀ t : DirTree,
    (runTree m slug true t).count = (runTree m slug false t).count ∧
    (runTree m slug true t).changed = (runTree m slug false t).changed ∧
    (runTree m slug true t).visited = (runTree m slug false t).visited ∧
    (runTree m slug true t).result = t
  | DirTree.node files fo => by
    obtain ⟨hf1, hf2, hf3, hf4⟩ := runFiles_dry_eq m slug files
    obtain ⟨hs1, hs2, hs3, hs4⟩ := runForest_dry_eq m slug fo
    refine ⟨?_, ?_, ?_, ?_⟩
    · show (runFiles m slug true files).count + (runForest m slug true fo).count
          = (runFiles m slug false files).count + (runForest m slug false fo).count
      rw [hf1, hs1]
    · show (runFiles m slug true files).changed ++ (runForest m slug true fo).changed
          = (runFiles m slug false files).changed ++ (runForest m slug false fo).changed
      rw [hf2, hs2]
    · show (runFiles m slug true files).visited ++ (runForest m slug true fo).visited
          = (runFiles m slug false files).visited ++ (runForest m slug false fo).visited
      rw [hf3, hs3]
    · show DirTree.node (runFiles m slug true files).result
          (runForest m slug true fo).result = DirTree.node files fo
      rw [hf4, hs4]

/-- Forest version of the dry-run frame property. -/
theorem runForest_dry_eq (m : List (List PItem × List Char)) (slug : List Char) :
    ∀ fo : Forest,
    (runForest m slug true fo).count = (runForest m slug false fo).count ∧
    (runForest m slug true fo).changed = (runForest m slug false fo).changed ∧
    (runForest m slug true fo).visited = (runForest m slug false fo).visited ∧
    (runForest m slug true fo).result = fo
  | Forest.nil => ⟨rfl, rfl, rfl, rfl⟩
  | Forest.fcons d t rest => by
    obtain ⟨ht1, ht2, ht3, ht4⟩ := runTree_dry_eq m slug t
    obtain ⟨hr1, hr2, hr3, hr4⟩ := runForest_dry_eq m slug rest
    by_cases hd : d ∈ EXCLUDE_DIRS
    · refine ⟨?_, ?_, ?_, ?_⟩ <;> simp [runForest, hd, hr1, hr2, hr3, hr4]
    · refine ⟨?_, ?_, ?_, ?_⟩ <;>
        simp [runForest, hd, ht1, ht2, ht3, ht4, hr1, hr2, hr3, hr4]
end

/-- C5: for any repository tree and any rule set, a dry run produces exactly
the changed-file count and changed-path list of a real run, and returns every
file with its original content (no write happens under dry-run, while each
file's processing is independent of the others in both modes). -/
theorem claim_C5_dry_run_frame : ∀ (name slug : List Char) (t : DirTree),
    (runTree (build_mappings name slug) slug true t).count
      = (runTree (build_mappings name slug) slug false t).count ∧
    (runTree (build_mappings name slug) slug true t).changed
      = (runTree (build_mappings name slug) slug false t).changed ∧
    (runTree (build_mappings name slug) slug true t).result = t :=
  fun name slug t =>
    ⟨(runTree_dry_eq (build_mappings name slug) slug t).1,
     (runTree_dry_eq (build_mappings name slug) slug t).2.1,
     (runTree_dry_eq (build_mappings name slug) slug t).2.2.2⟩

/-! ## C6: files under excluded directories are never touched -/

/-- Paths reported by the per-directory file loop have no directory part. -/
theorem runFiles_visited_fst (m : List (List PItem × List Char)) (slug : List Char)
    (dry : Bool) : ∀ (files : List RFile) (pr : FPath),
    pr ∈ (runFiles m slug dry files).visited → pr.1 = [] := by
  intro files
  induction files with
  | nil => intro pr h; simp [runFiles] at h
  | cons f rest ih =>
    intro pr h
    cases hp : processFile m slug f with
    | some s2 =>
      rw [runFiles, hp] at h
      rcases List.mem_cons.mp h with rfl | h'
      · rfl
      · exact ih pr h'
    | none =>
      rw [runFiles, hp] at h
      rcases List.mem_cons.mp h with rfl | h'
      · rfl
      · exact ih pr h'

/-- Paths counted as changed by the file loop have no directory part. -/
theorem runFiles_changed_fst (m : List (List PItem × List Char)) (slug : List Char)
    (dry : Bool) : ∀ (files : List RFile) (pr : FPath),
    pr ∈ (runFiles m slug dry files).changed → pr.1 = [] := by
  intro files
  induction files with
  | nil => intro pr h; simp [runFiles] at h
  | cons f rest ih =>
    intro pr h
    cases hp : processFile m slug f with
    | some s2 =>
      rw [runFiles, hp] at h
      rcases List.mem_cons.mp h with rfl | h'
      · rfl
      · exact ih pr h'
    | none =>
      rw [runFiles, hp] at h
      exact ih pr h

mutual
/-- A path through an excluded directory is neither visited nor reported,
and the file it denotes keeps its content. -/
theorem runTree_excl (m : List (List PItem × List Char)) (slug : List Char)
    (dry : Bool) : ∀ (t : DirTree) (dirs : List (List Char)) (fname : List Char),
    dirs.any (fun d => EXCLUDE_DIRS.contains d) = true →
    ¬ (dirs, fname) ∈ (runTree m slug dry t).visited ∧
    ¬ (dirs, fname) ∈ (runTree m slug dry t).changed ∧
    findFile (runTree m slug dry t).result dirs fname = findFile t dirs fname
  | DirTree.node files fo, dirs, fname => by
    intro h
    cases dirs with
    | nil => exact Bool.noConfusion h
    | cons d ds =>
      obtain ⟨hv, hc, hf⟩ := runForest_excl m slug dry fo d ds fname h
      refine ⟨?_, ?_, ?_⟩
      · intro hmem
        have hmem' : (d :: ds, fname) ∈ (runFiles m slug dry files).visited ∨
            (d :: ds, fname) ∈ (runForest m slug dry fo).visited :=
          List.mem_append.mp hmem
        rcases hmem' with h1 | h2
        · exact List.cons_ne_nil d ds (runFiles_visited_fst m slug dry files _ h1)
        · exact hv h2
      · intro hmem
        have hmem' : (d :: ds, fname) ∈ (runFiles m slug dry files).changed ∨
            (d :: ds, fname) ∈ (runForest m slug dry fo).changed :=
          List.mem_append.mp hmem
        rcases hmem' with h1 | h2
        · exact List.cons_ne_nil d ds (runFiles_changed_fst m slug dry files _ h1)
        · exact hc h2
      · show findForest (runForest m slug dry fo).result d ds fname
            = findForest fo d ds fname
        exact hf

/-- Forest version of the exclusion property. -/
theorem runForest_excl (m : List (List PItem × List Char)) (slug : List Char)
    (dry : Bool) : ∀ (fo : Forest) (d : List Char) (ds : List (List Char))
    (fname : List Char),
    (d :: ds).any (fun x => EXCLUDE_DIRS.contains x) = true →
    ¬ (d :: ds, fname) ∈ (runForest m slug dry fo).visited ∧
    ¬ (d :: ds, fname) ∈ (runForest m slug dry fo).changed ∧
    findForest (runForest m slug dry fo).result d ds fname = findForest fo d ds fname
  | Forest.nil, d, ds, fname => by
    intro _
    exact ⟨fun h => by simp [runForest] at h, fun h => by simp [runForest] at h, rfl⟩
  | Forest.fcons n t rest, d, ds, fname => by
    intro h
    obtain ⟨hrv, hrc, hrf⟩ := runForest_excl m slug dry rest d ds fname h
    have hsplit : d ∈ EXCLUDE_DIRS ∨ ds.any (fun x => EXCLUDE_DIRS.contains x) = true := by
      simpa using h
    by_cases hn : n ∈ EXCLUDE_DIRS
    · refine ⟨?_, ?_, ?_⟩
      · intro hmem
        apply hrv
        simpa [runForest, hn] using hmem
      · intro hmem
        apply hrc
        simpa [runForest, hn] using hmem
      · have hres : (runForest m slug dry (Forest.fcons n t rest)).result
            = Forest.fcons n t (runForest m slug dry rest).result := by
          simp [runForest, hn]
        rw [hres]
        by_cases hnd : n = d
        · simp [findForest, hnd]
        · simp [findForest, hnd, hrf]
    · have hout : (runForest m slug dry (Forest.fcons n t rest))
          = ⟨(runTree m slug dry t).count + (runForest m slug dry rest).count,
             prefixPaths n (runTree m slug dry t).changed
               ++ (runForest m slug dry rest).changed,
             prefixPaths n (runTree m slug dry t).visited
               ++ (runForest m slug dry rest).visited,
             Forest.fcons n (runTree m slug dry t).result
               (runForest m slug dry rest).result⟩ := by
        simp [runForest, hn]
      have hds : n = d → ds.any (fun x => EXCLUDE_DIRS.contains x) = true := by
        intro hnd
        rcases hsplit with hd | hds
        · exact absurd (hnd ▸ hd) hn
        · exact hds
      refine ⟨?_, ?_, ?_⟩
      · intro hmem
        rw [hout] at hmem
        rcases List.mem_append.mp hmem with h1 | h2
        · simp only [prefixPaths, List.mem_map] at h1
          obtain ⟨⟨pr1, pr2⟩, hpr, heq⟩ := h1
          have h4 : n :: pr1 = d :: ds := congrArg Prod.fst heq
          have h5 : pr2 = fname := congrArg Prod.snd heq
          injection h4 with hnd hds1
          rw [hds1, h5] at hpr
          exact (runTree_excl m slug dry t ds fname (hds hnd)).1 hpr
        · exact hrv h2
      · intro hmem
        rw [hout] at hmem
        rcases List.mem_append.mp hmem with h1 | h2
        · simp only [prefixPaths, List.mem_map] at h1
          obtain ⟨⟨pr1, pr2⟩, hpr, heq⟩ := h1
          have h4 : n :: pr1 = d :: ds := congrArg Prod.fst heq
          have h5 : pr2 = fname := congrArg Prod.snd heq
          injection h4 with hnd hds1
          rw [hds1, h5] at hpr
          exact (runTree_excl m slug dry t ds fname (hds hnd)).2.1 hpr
        · exact hrc h2
      · have hres : (runForest m slug dry (Forest.fcons n t rest)).result
            = Forest.fcons n (runTree m slug dry t).result
                (runForest m slug dry rest).result := by
          simp [runForest, hn]
        rw [hres]
        by_cases hnd : n = d
        · subst hnd
          simp [findForest, (runTree_excl m slug dry t ds fname (hds rfl)).2.2]
        · simp [findForest, hnd, hrf]
end

/-- C6: during traversal, a path that passes through a directory whose name
is in `EXCLUDE_DIRS` is never visited (the file behind it is never read),
never reported as changed, and its content in the resulting tree is exactly
its original content — pruning happens before descent, so this holds for
files at any depth under the excluded directory, whatever their content. -/
theorem claim_C6_excluded_dirs_untouched :
    ∀ (m : List (List PItem × List Char)) (slug : List Char) (dry : Bool)
    (t : DirTree) (dirs : List (List Char)) (fname : List Char),
    dirs.any (fun d => EXCLUDE_DIRS.contains d) = true →
    ¬ (dirs, fname) ∈ (runTree m slug dry t).visited ∧
    ¬ (dirs, fname) ∈ (runTree m slug dry t).changed ∧
    findFile (runTree m slug dry t).result dirs fname = findFile t dirs fname :=
  fun m slug dry t dirs fname h => runTree_excl m slug dry t dirs fname h

/-- A repository tree with matchable text hidden inside `.git`. -/
def gitExampleTree : DirTree :=
  DirTree.node [] (Forest.fcons (cs ".git")
    (DirTree.node [⟨cs "config", cs "oneshot"⟩] Forest.nil) Forest.nil)

/-- C6 witness: the `.git/config` file containing `"oneshot"` is not
visited, not reported, and keeps its content in a real (non-dry) run. -/
theorem claim_C6_excluded_dirs_untouched_witness :
    ¬ ([cs ".git"], cs "config")
        ∈ (runTree acmeMappings acmeSlug false gitExampleTree).visited ∧
    ¬ ([cs ".git"], cs "config")
        ∈ (runTree acmeMappings acmeSlug false gitExampleTree).changed ∧
    findFile (runTree acmeMappings acmeSlug false gitExampleTree).result
        [cs ".git"] (cs "config")
      = findFile gitExampleTree [cs ".git"] (cs "config") :=
  claim_C6_excluded_dirs_untouched acmeMappings acmeSlug false gitExampleTree
    [cs ".git"] (cs "config") (by decide)

/-! ## C8, C9, C10: shape of `to_slug` output

A `to_slug` result is characterised by `isGoodSlug`: nonempty, only
`[a-z0-9-]` characters, no two adjacent hyphens, and no hyphen at either
end.  `to_slug` always produces such a list, and is the identity on such a
list; idempotence and the npm-safety of derived slugs follow. -/

/-- A character the collapsed slug may contain. -/
def isGoodChar (c : Char) : Bool := isSlugChar c || decide (c = '-')

/-- All characters are slug characters or hyphens. -/
def goodChars (l : List Char) : Bool := l.all isGoodChar

/-- No two adjacent hyphens. -/
def noAdjHH : List Char → Bool
  | [] => true
  | [_] => true
  | a :: b :: t => !decide (a = '-' ∧ b = '-') && noAdjHH (b :: t)

/-- The first character, if any, is not a hyphen. -/
def noLead : List Char → Bool
  | [] => true
  | c :: _ => !decide (c = '-')

/-- The last character, if any, is not a hyphen. -/
def noTrail (l : List Char) : Bool := noLead l.reverse

/-- Invariant of `to_slug` results. -/
def isGoodSlug (l : List Char) : Bool :=
  !l.isEmpty && goodChars l && noAdjHH l && noLead l && noTrail l

/-- A slug character is not a hyphen. -/
theorem isSlugChar_ne_hyphen {c : Char} (h : isSlugChar c = true) : c ≠ '-' := by
  intro heq
  rw [heq] at h
  exact absurd h (by decide)

/-- Good characters are not Python whitespace. -/
theorem isGoodChar_not_ws {c : Char} (h : isGoodChar c = true) : isPyWs c = false := by
  simp only [isGoodChar, Bool.or_eq_true] at h
  rcases h with h1 | h1
  · simp only [isSlugChar, decide_eq_true_eq] at h1
    simp only [isPyWs, decide_eq_false_iff_not]
    omega
  · have : c = '-' := of_decide_eq_true h1
    subst this
    decide

/-- Good characters are fixed by `str.lower`. -/
theorem isGoodChar_lower_fix {c : Char} (h : isGoodChar c = true) :
    pyToLower c = c := by
  simp only [isGoodChar, Bool.or_eq_true] at h
  rcases h with h1 | h1
  · simp only [isSlugChar, decide_eq_true_eq] at h1
    rw [pyToLower, if_neg (by omega)]
  · have : c = '-' := of_decide_eq_true h1
    subst this
    decide

/-- Good characters are not underscores. -/
theorem isGoodChar_ne_underscore {c : Char} (h : isGoodChar c = true) : c ≠ '_' := by
  simp only [isGoodChar, Bool.or_eq_true] at h
  rcases h with h1 | h1
  · intro heq
    rw [heq] at h1
    exact absurd h1 (by decide)
  · have : c = '-' := of_decide_eq_true h1
    subst this
    decide

/-- Dropping a prefix preserves `all`. -/
theorem all_dropWhile_of_all (p q : Char → Bool) :
    ∀ l : List Char, l.all p = true → (l.dropWhile q).all p = true := by
  intro l
  induction l with
  | nil => intro h; exact h
  | cons c t ih =>
    intro h
    rw [List.all_cons, Bool.and_eq_true] at h
    obtain ⟨h1, h2⟩ := h
    by_cases hq : q c = true
    · simpa [List.dropWhile_cons, hq] using ih h2
    · simp only [Bool.not_eq_true] at hq
      simp [List.dropWhile_cons, hq, List.all_cons, h1, h2]

/-- Reversal preserves `all`. -/
theorem all_reverse_of_all (p : Char → Bool) {l : List Char} (h : l.all p = true) :
    l.reverse.all p = true := by
  simp only [List.all_eq_true] at h ⊢
  intro x hx
  exact h x (List.mem_reverse.mp hx)

/-- `dropWhile` is the identity when no element satisfies the predicate. -/
theorem dropWhile_eq_self_of_all_false (q : Char → Bool) :
    ∀ l : List Char, (∀ c ∈ l, q c = false) → l.dropWhile q = l := by
  intro l h
  cases l with
  | nil => rfl
  | cons c t => simp [List.dropWhile_cons, h c (List.mem_cons_self c t)]

/-- The head surviving a `dropWhile` fails the predicate. -/
theorem head_of_dropWhile (q : Char → Bool) :
    ∀ (l : List Char) (c : Char) (t : List Char),
    l.dropWhile q = c :: t → q c = false := by
  intro l
  induction l with
  | nil => intro c t h; exact absurd h (by simp)
  | cons a rest ih =>
    intro c t h
    by_cases hq : q a = true
    · rw [List.dropWhile_cons, if_pos hq] at h
      exact ih c t h
    · simp only [Bool.not_eq_true] at hq
      rw [List.dropWhile_cons, if_neg (by simp [hq])] at h
      injection h with h1 _
      rw [← h1]
      exact hq

/-- A nonempty `dropWhile` result keeps the last element. -/
theorem getLast?_dropWhile (q : Char → Bool) :
    ∀ l : List Char, l.dropWhile q ≠ [] →
    (l.dropWhile q).getLast? = l.getLast? := by
  intro l
  induction l with
  | nil => intro h; exact absurd rfl h
  | cons a rest ih =>
    intro h
    by_cases hq : q a = true
    · rw [List.dropWhile_cons, if_pos hq] at h ⊢
      rw [ih h]
      cases rest with
      | nil => exact absurd rfl h
      | cons b rt => rw [List.getLast?_cons_cons]
    · simp only [Bool.not_eq_true] at hq
      rw [List.dropWhile_cons, if_neg (by simp [hq])]

/-- The tail of a no-adjacent-hyphen list is one as well. -/
theorem noAdjHH_tail {c : Char} {l : List Char} (h : noAdjHH (c :: l) = true) :
    noAdjHH l = true := by
  cases l with
  | nil => rfl
  | cons b t =>
    simp only [noAdjHH, Bool.and_eq_true] at h
    exact h.2

/-- Prepending a non-hyphen preserves `noAdjHH`. -/
theorem noAdjHH_cons_slug {c : Char} {l : List Char} (hc : isSlugChar c = true)
    (h : noAdjHH l = true) : noAdjHH (c :: l) = true := by
  cases l with
  | nil => rfl
  | cons b t =>
    have : ¬ (c = '-' ∧ b = '-') := fun hcb => isSlugChar_ne_hyphen hc hcb.1
    simp [noAdjHH, this, h]

/-- Prepending a hyphen to a list not starting with one preserves `noAdjHH`. -/
theorem noAdjHH_cons_hyphen {l : List Char} (hl : noLead l = true)
    (h : noAdjHH l = true) : noAdjHH ('-' :: l) = true := by
  cases l with
  | nil => rfl
  | cons b t =>
    have hb : ¬ b = '-' := by
      simp only [noLead, Bool.not_eq_true', decide_eq_false_iff_not] at hl
      exact hl
    have : ¬ ('-' = '-' ∧ b = '-') := fun hcb => hb hcb.2
    simp [noAdjHH, this, h, hb]

/-- Dropping a prefix preserves `noAdjHH`. -/
theorem noAdjHH_dropWhile (q : Char → Bool) :
    ∀ l : List Char, noAdjHH l = true → noAdjHH (l.dropWhile q) = true := by
  intro l
  induction l with
  | nil => intro h; exact h
  | cons c t ih =>
    intro h
    by_cases hq : q c = true
    · rw [List.dropWhile_cons, if_pos hq]
      exact ih (noAdjHH_tail h)
    · simp only [Bool.not_eq_true] at hq
      rw [List.dropWhile_cons, if_neg (by simp [hq])]
      exact h

/-- Appending one element compatible with the last preserves `noAdjHH`. -/
theorem noAdjHH_append_single :
    ∀ (l : List Char) (c : Char), noAdjHH l = true →
    (∀ a, l.getLast? = some a → ¬ (a = '-' ∧ c = '-')) →
    noAdjHH (l ++ [c]) = true := by
  intro l
  induction l with
  | nil => intro c _ _; rfl
  | cons a t ih =>
    intro c h hlast
    cases t with
    | nil =>
      have : ¬ (a = '-' ∧ c = '-') := hlast a rfl
      simp [noAdjHH, this]
    | cons b bt =>
      simp only [noAdjHH, Bool.and_eq_true] at h
      obtain ⟨h1, h2⟩ := h
      have hl : noAdjHH ((b :: bt) ++ [c]) = true :=
        ih c h2 (fun x hx => hlast x (by rw [List.getLast?_cons_cons]; exact hx))
      have h1' : ¬ (a = '-' ∧ b = '-') := by
        simp only [Bool.not_eq_true', decide_eq_false_iff_not] at h1
        exact h1
      simp only [List.cons_append]
      simp [noAdjHH, h1']
      have : (b :: bt) ++ [c] = b :: (bt ++ [c]) := rfl
      rw [this] at hl
      exact hl

/-- Reversal preserves `noAdjHH`. -/
theorem noAdjHH_reverse : ∀ l : List Char, noAdjHH l = true →
    noAdjHH l.reverse = true := by
  intro l
  induction l with
  | nil => intro h; exact h
  | cons c t ih =>
    intro h
    rw [List.reverse_cons]
    apply noAdjHH_append_single _ _ (ih (noAdjHH_tail h))
    intro a ha hac
    rw [List.getLast?_reverse] at ha
    cases t with
    | nil => exact absurd ha (by simp)
    | cons b bt =>
      have hb : b = a := by
        simp only [List.head?_cons, Option.some.injEq] at ha
        exact ha
      subst hb
      simp only [noAdjHH, Bool.and_eq_true] at h
      have hp : ¬ (c = '-' ∧ b = '-') := by
        have h1 := h.1
        simp only [Bool.not_eq_true', decide_eq_false_iff_not] at h1
        exact h1
      exact hp ⟨hac.2, hac.1⟩

/-- Output of the run-collapsing substitution: only good characters, no two
adjacent hyphens, and (when already inside a run) no leading hyphen. -/
theorem collapseAux_good : ∀ (l : List Char) (b : Bool),
    goodChars (collapseAux b l) = true ∧ noAdjHH (collapseAux b l) = true ∧
    (b = true → noLead (collapseAux b l) = true) := by
  intro l
  induction l with
  | nil => intro b; exact ⟨rfl, rfl, fun _ => rfl⟩
  | cons c rest ih =>
    intro b
    by_cases hc : isSlugChar c = true
    · obtain ⟨ihg, ihn, _⟩ := ih false
      have hcol : collapseAux b (c :: rest) = c :: collapseAux false rest := by
        simp [collapseAux, hc]
      rw [hcol]
      have hgc : isGoodChar c = true := by simp [isGoodChar, hc]
      refine ⟨?_, noAdjHH_cons_slug hc ihn, fun _ => ?_⟩
      · rw [goodChars, List.all_cons, Bool.and_eq_true]
        exact ⟨hgc, ihg⟩
      · simp [noLead, isSlugChar_ne_hyphen hc]
    · have hc' : isSlugChar c = false := by simpa using hc
      cases b with
      | true =>
        obtain ⟨ihg, ihn, ihl⟩ := ih true
        have hcol : collapseAux true (c :: rest) = collapseAux true rest := by
          simp [collapseAux, hc']
        rw [hcol]
        exact ⟨ihg, ihn, fun _ => ihl rfl⟩
      | false =>
        obtain ⟨ihg, ihn, ihl⟩ := ih true
        have hcol : collapseAux false (c :: rest) = '-' :: collapseAux true rest := by
          simp [collapseAux, hc']
        rw [hcol]
        refine ⟨?_, noAdjHH_cons_hyphen (ihl rfl) ihn, fun hb => Bool.noConfusion hb⟩
        rw [goodChars, List.all_cons, Bool.and_eq_true]
        exact ⟨by simp [isGoodChar], ihg⟩

/-- The run-collapsing substitution is the identity on a good list. -/
theorem collapseAux_fix : ∀ (l : List Char) (b : Bool),
    goodChars l = true → noAdjHH l = true → (b = true → noLead l = true) →
    collapseAux b l = l := by
  intro l
  induction l with
  | nil => intro b _ _ _; rfl
  | cons c rest ih =>
    intro b hg hn hl
    rw [goodChars, List.all_cons, Bool.and_eq_true] at hg
    obtain ⟨hgc, hgrest⟩ := hg
    rcases Bool.or_eq_true _ _ ▸ hgc with hslug | hhyp
    · have : collapseAux b (c :: rest) = c :: collapseAux false rest := by
        simp [collapseAux, hslug]
      rw [this, ih false hgrest (noAdjHH_tail hn) (fun hb => Bool.noConfusion hb)]
    · have hch : c = '-' := of_decide_eq_true hhyp
      subst hch
      cases b with
      | true =>
        have := hl rfl
        simp [noLead] at this
      | false =>
        have hcol : collapseAux false ('-' :: rest) = '-' :: collapseAux true rest := by
          simp [collapseAux, isSlugChar]
        have hrl : noLead rest = true := by
          cases rest with
          | nil => rfl
          | cons b t =>
            simp only [noAdjHH, Bool.and_eq_true] at hn
            have h1 := hn.1
            have : ¬ b = '-' := by
              intro hb
              subst hb
              simp at h1
            simp [noLead, this]
        rw [hcol, ih true hgrest (noAdjHH_tail hn) (fun _ => hrl)]

/-- `strip("-")` keeps only good characters. -/
theorem stripHyphens_good {l : List Char} (h : goodChars l = true) :
    goodChars (stripHyphens l) = true := by
  rw [stripHyphens]
  exact all_reverse_of_all _ (all_dropWhile_of_all _ _ _
    (all_reverse_of_all _ (all_dropWhile_of_all _ _ _ h)))

/-- `strip("-")` preserves the no-adjacent-hyphens invariant. -/
theorem stripHyphens_noAdj {l : List Char} (h : noAdjHH l = true) :
    noAdjHH (stripHyphens l) = true := by
  rw [stripHyphens]
  exact noAdjHH_reverse _ (noAdjHH_dropWhile _ _
    (noAdjHH_reverse _ (noAdjHH_dropWhile _ _ h)))

/-- A list whose optional head is constrained has `noLead` accordingly. -/
theorem noLead_of_head? {l : List Char} {c : Char} (h : l.head? = some c)
    (hc : ¬ c = '-') : noLead l = true := by
  cases l with
  | nil => exact Option.noConfusion h
  | cons x xs =>
    have : x = c := by
      simp only [List.head?_cons, Option.some.injEq] at h
      exact h
    subst this
    simp [noLead, hc]

/-- `strip("-")` results never start with a hyphen. -/
theorem stripHyphens_noLead (l : List Char) : noLead (stripHyphens l) = true := by
  rw [stripHyphens]
  set A := l.dropWhile (fun c => c = '-') with hA
  set B := A.reverse.dropWhile (fun c => c = '-') with hB
  cases hBc : B with
  | nil => rfl
  | cons b bt =>
    have hBne : B ≠ [] := by rw [hBc]; exact List.cons_ne_nil b bt
    have hlast : B.getLast? = A.reverse.getLast? := by
      have h0 := getLast?_dropWhile (fun c => decide (c = '-')) A.reverse
        (by rw [← hB]; exact hBne)
      rw [← hB] at h0
      exact h0
    have hAne : A ≠ [] := by
      intro h0
      apply hBne
      rw [hB, h0]
      rfl
    cases hAc : A with
    | nil => exact absurd hAc hAne
    | cons a arest =>
      have hdw : l.dropWhile (fun c => decide (c = '-')) = a :: arest := by
        rw [← hA]
        exact hAc
      have hqa := head_of_dropWhile (fun c => decide (c = '-')) l a arest hdw
      have hna : ¬ a = '-' := by simpa using hqa
      apply noLead_of_head? _ hna
      rw [List.head?_reverse, ← hBc, hlast, List.getLast?_reverse, hAc]
      rfl

/-- `strip("-")` results never end with a hyphen. -/
theorem stripHyphens_noTrail (l : List Char) : noTrail (stripHyphens l) = true := by
  rw [stripHyphens, noTrail, List.reverse_reverse]
  cases hBc : (l.dropWhile (fun c => c = '-')).reverse.dropWhile (fun c => c = '-') with
  | nil => rfl
  | cons b bt =>
    have hqb := head_of_dropWhile (fun c => decide (c = '-')) _ b bt hBc
    have hnb : ¬ b = '-' := by simpa using hqb
    simp [noLead, hnb]

/-- `strip()` is the identity on a list of good characters. -/
theorem stripWs_fix {l : List Char} (h : goodChars l = true) : stripWs l = l := by
  have hmem : ∀ c ∈ l, isPyWs c = false := by
    intro c hc
    exact isGoodChar_not_ws (List.all_eq_true.mp h c hc)
  have h1 : l.dropWhile isPyWs = l := dropWhile_eq_self_of_all_false _ l hmem
  have h2 : l.reverse.dropWhile isPyWs = l.reverse :=
    dropWhile_eq_self_of_all_false _ l.reverse
      (fun c hc => hmem c (List.mem_reverse.mp hc))
  rw [stripWs, h1, h2, List.reverse_reverse]

/-- `lower()` is the identity on a list of good characters. -/
theorem mapLower_fix : ∀ l : List Char, goodChars l = true →
    l.map pyToLower = l := by
  intro l
  induction l with
  | nil => intro _; rfl
  | cons c t ih =>
    intro h
    rw [goodChars, List.all_cons, Bool.and_eq_true] at h
    rw [List.map_cons, isGoodChar_lower_fix h.1, ih h.2]

/-- `strip("-")` is the identity when neither end is a hyphen. -/
theorem stripHyphens_fix {l : List Char} (hl : noLead l = true)
    (ht : noTrail l = true) : stripHyphens l = l := by
  have h1 : l.dropWhile (fun c => decide (c = '-')) = l := by
    cases l with
    | nil => rfl
    | cons c t =>
      have : ¬ c = '-' := by
        simp only [noLead, Bool.not_eq_true', decide_eq_false_iff_not] at hl
        exact hl
      simp [List.dropWhile_cons, this]
  have h2 : l.reverse.dropWhile (fun c => decide (c = '-')) = l.reverse := by
    rw [noTrail] at ht
    cases hr : l.reverse with
    | nil => rfl
    | cons c t =>
      rw [hr] at ht
      have : ¬ c = '-' := by
        simp only [noLead, Bool.not_eq_true', decide_eq_false_iff_not] at ht
        exact ht
      simp [List.dropWhile_cons, this]
  rw [stripHyphens, h1, h2, List.reverse_reverse]

/-- Every `to_slug` result satisfies the slug invariant. -/
theorem to_slug_good (s : List Char) : isGoodSlug (to_slug s) = true := by
  by_cases h : slugCore s = []
  · rw [to_slug, if_pos h]
    decide
  · rw [to_slug, if_neg h]
    obtain ⟨hg, hn, _⟩ :=
      collapseAux_good ((stripWs s).map pyToLower) false
    have hcore : slugCore s
        = stripHyphens (collapseAux false ((stripWs s).map pyToLower)) := rfl
    have hgood : goodChars (slugCore s) = true := by
      rw [hcore]; exact stripHyphens_good hg
    have hadj : noAdjHH (slugCore s) = true := by
      rw [hcore]; exact stripHyphens_noAdj hn
    have hlead : noLead (slugCore s) = true := by
      rw [hcore]; exact stripHyphens_noLead _
    have htrail : noTrail (slugCore s) = true := by
      rw [hcore]; exact stripHyphens_noTrail _
    have hne : (slugCore s).isEmpty = false := by
      cases hc : slugCore s with
      | nil => exact absurd hc h
      | cons a t => rfl
    rw [isGoodSlug, hne, hgood, hadj, hlead, htrail]
    rfl

/-- `to_slug` is the identity on any list satisfying the slug invariant. -/
theorem to_slug_fix (l : List Char) (h : isGoodSlug l = true) : to_slug l = l := by
  rw [isGoodSlug] at h
  simp only [Bool.and_eq_true] at h
  obtain ⟨⟨⟨⟨hne, hg⟩, hn⟩, hl⟩, ht⟩ := h
  have hlne : ¬ l = [] := by
    intro h0
    rw [h0] at hne
    exact Bool.noConfusion hne
  have hcore : slugCore l = l := by
    rw [slugCore, stripWs_fix hg, mapLower_fix l hg,
      collapseAux_fix l false hg hn (fun hb => Bool.noConfusion hb),
      stripHyphens_fix hl ht]
  rw [to_slug, hcore, if_neg hlne]

/-! ## C8 -/

/-- C8: `to_slug` is total and never returns the empty list: it is exactly
the strip-whitespace, lower-case, collapse-non-alphanumeric-runs,
strip-hyphens pipeline with the fixed fallback `"app"` when that pipeline
comes out empty. -/
theorem claim_C8_to_slug_contract : ∀ name : List Char,
    to_slug name = (if slugCore name = [] then cs "app" else slugCore name) ∧
    slugCore name
      = stripHyphens (collapseAux false ((stripWs name).map pyToLower)) ∧
    (to_slug name).isEmpty = false := by
  intro name
  refine ⟨rfl, rfl, ?_⟩
  by_cases hsc : slugCore name = []
  · rw [to_slug, if_pos hsc]
    decide
  · rw [to_slug, if_neg hsc]
    cases hc : slugCore name with
    | nil => exact absurd hc hsc
    | cons a t => rfl

/-! ## C9 -/

/-- C9: the slug deriver is idempotent — its output satisfies the slug
invariant (nonempty, `[a-z0-9-]` only, no adjacent hyphens, no hyphen at
either end), and it is the identity on any such value. -/
theorem claim_C9_to_slug_idempotent : ∀ s : List Char,
    to_slug (to_slug s) = to_slug s :=
  fun s => to_slug_fix (to_slug s) (to_slug_good s)

/-! ## C10 -/

/-- The claim's regex `^[a-z0-9][a-z0-9-]*$` as a Bool. -/
def slugShapeOk (l : List Char) : Bool :=
  match l with
  | [] => false
  | c :: rest => isSlugChar c && rest.all isGoodChar

/-- C10: every `to_slug` output starts with a lowercase letter or digit,
continues with letters, digits or hyphens only, has no underscore and no
trailing hyphen; consequently the manifest patcher's identifier-safe check
accepts every derived slug and its sanitize branch is unreachable. -/
theorem claim_C10_derived_slug_npm_safe : ∀ name : List Char,
    slugShapeOk (to_slug name) = true ∧
    (to_slug name).all (fun c => !decide (c = '_')) = true ∧
    ((to_slug name).getLast? == some '-') = false ∧
    npmSafe (to_slug name) = true ∧
    npmName (to_slug name) = to_slug name := by
  intro name
  have h := to_slug_good name
  rw [isGoodSlug] at h
  simp only [Bool.and_eq_true] at h
  obtain ⟨⟨⟨⟨hne, hg⟩, hn⟩, hl⟩, ht⟩ := h
  cases hts : to_slug name with
  | nil =>
    rw [hts] at hne
    exact Bool.noConfusion hne
  | cons c rest =>
    rw [hts] at hg hl ht
    rw [goodChars, List.all_cons, Bool.and_eq_true] at hg
    obtain ⟨hgc, hgrest⟩ := hg
    have hcnh : ¬ c = '-' := by
      simp only [noLead, Bool.not_eq_true', decide_eq_false_iff_not] at hl
      exact hl
    have hcslug : isSlugChar c = true := by
      rcases Bool.or_eq_true _ _ ▸ hgc with h1 | h1
      · exact h1
      · exact absurd (of_decide_eq_true h1) hcnh
    have hshape : slugShapeOk (c :: rest) = true := by
      rw [slugShapeOk, Bool.and_eq_true]
      exact ⟨hcslug, hgrest⟩
    have hnous : (c :: rest).all (fun x => !decide (x = '_')) = true := by
      rw [List.all_eq_true]
      intro x hx
      have hgx : isGoodChar x = true := by
        rw [List.all_eq_true] at hgrest
        rcases List.mem_cons.mp hx with rfl | hx'
        · rw [isGoodChar, Bool.or_eq_true]
          exact Or.inl hcslug
        · exact hgrest x hx'
      simp [isGoodChar_ne_underscore hgx]
    have hlast : (c :: rest).getLast? ≠ some '-' := by
      intro heq
      have h1 : (c :: rest).reverse.head? = some '-' := by
        rw [List.head?_reverse, heq]
      rw [noTrail] at ht
      cases hr : (c :: rest).reverse with
      | nil => rw [hr] at h1; exact Option.noConfusion h1
      | cons x xs =>
        rw [hr] at h1 ht
        have hx : x = '-' := by
          simp only [List.head?_cons, Option.some.injEq] at h1
          exact h1
        subst hx
        simp [noLead] at ht
    have hcore : npmSafeCore (c :: rest) = true := by
      rw [npmSafeCore, Bool.and_eq_true]
      refine ⟨hcslug, ?_⟩
      rw [List.all_eq_true]
      intro x hx
      rw [List.all_eq_true] at hgrest
      have hgx := hgrest x hx
      rcases Bool.or_eq_true _ _ ▸ hgx with h1 | h1
      · simp [h1]
      · simp [of_decide_eq_true h1]
    have hsafe : npmSafe (c :: rest) = true := by
      rw [npmSafe, hcore]
      rfl
    refine ⟨hshape, hnous, beq_eq_false_iff_ne.mpr hlast, hsafe, ?_⟩
    rw [npmName, if_pos hsafe]

end Scrub
